import Mathlib

/-!
Verification of the image_lab steganography repository.

The repository ships a Next.js frontend (`frontend_stegnography/`) whose
encode page computes a client-side capacity estimate and builds the
hide-text / hide-file requests, plus documentation (`USAGE.md`, spec) of a
backend steganographic codec whose implementation is not part of the
source tree.  The frontend computations are embedded directly from
`app/encode/page.tsx`; the codec (header framing, bit packing, transform
pipeline, orchestrator) is modelled from the specification, as noted on
each definition.
-/

namespace ImageLab

/-! ## Frontend capacity estimate

Embedded from `src/frontend_stegnography/app/encode/page.tsx`, the
capacity `useEffect` (lines 40-49):

  const pixels = imageStats.width * imageStats.height
  const channelCount = channels.length
  const totalBits = pixels * channelCount * bitsPerChannel[0]
  const capacityBytes = Math.floor(totalBits / 8)
  const usableCapacity = Math.max(0, capacityBytes - 100) // Overhead buffer

All quantities are nonnegative integers; `Math.floor` on the nonnegative
quotient is integer division, and the subtraction `capacityBytes - 100`
may go negative before the `Math.max(0, _)` clamp, so the embedding uses
`ℤ` for the intermediate values. -/

def usableCapacity (width height channelCount bitsPerChannel : ℕ) : ℤ :=
  let pixels : ℤ := (width : ℤ) * (height : ℤ)
  let totalBits : ℤ := pixels * (channelCount : ℤ) * (bitsPerChannel : ℤ)
  let capacityBytes : ℤ := totalBits / 8
  max 0 (capacityBytes - 100)

/-- The capacity formula as the spec words it (section 4.2): raw bits minus a
fixed width-independent header reservation, floor-divided by 8, minus a
constant safety margin.  Used to compare the spec's formula with the code's. -/
def specUsableCapacity (width height channelCount bitsPerChannel
    headerBitsReserved safetyMargin : ℕ) : ℤ :=
  ((width : ℤ) * (height : ℤ) * (channelCount : ℤ) * (bitsPerChannel : ℤ)
    - (headerBitsReserved : ℤ)) / 8 - (safetyMargin : ℤ)

/-! ## Frontend encode request construction

Embedded from `handleEncode` in
`src/frontend_stegnography/app/encode/page.tsx` (lines 86-130).  The
function returns early when no cover image is set; otherwise it builds a
multipart form.  On the text tab it appends `file`, `text`, `password`
(only when encryption is on and the password string is nonempty — JS
truthiness of `useEncryption && password`), and `bits_per_channel`; on the
file tab it appends `file`, `cover`, `secret`, then the same optional
`password` and `bits_per_channel`.  The selected channels and the
compress switch are never appended. -/

inductive PayloadTab
  | text
  | file
deriving DecidableEq

inductive FormValue
  | str (s : String)
  | fileRef (name : String)
deriving DecidableEq

structure EncodeUIState where
  coverImage : Option String
  activeTab : PayloadTab
  secretText : String
  secretFile : Option String
  bitsPerChannel : ℕ
  channels : List String
  useEncryption : Bool
  password : String
  compress : Bool

def passwordField (s : EncodeUIState) : List (String × FormValue) :=
  if s.useEncryption ∧ s.password ≠ "" then [("password", .str s.password)] else []

def handleEncodeRequest (s : EncodeUIState) :
    Option (String × List (String × FormValue)) :=
  match s.coverImage with
  | none => none
  | some cover =>
    if s.activeTab = .text then
      some ("/stego/hide-text",
        [("file", .fileRef cover), ("text", .str s.secretText)]
          ++ passwordField s
          ++ [("bits_per_channel", .str (toString s.bitsPerChannel))])
    else
      some ("/stego/hide-file",
        [("file", .fileRef cover), ("cover", .fileRef cover),
          ("secret", .fileRef (s.secretFile.getD ""))]
          ++ passwordField s
          ++ [("bits_per_channel", .str (toString s.bitsPerChannel))])

/-! ## List utilities

`flatMapL` and `chunks` are the concatenation / fixed-size grouping
primitives used by the codec model below.  `chunks` is defined through a
fuel-indexed helper so that it is structurally recursive and evaluates by
kernel reduction on concrete inputs. -/

def flatMapL (f : α → List β) : List α → List β
  | [] => []
  | a :: l => f a ++ flatMapL f l

def chunksAux (k : ℕ) : ℕ → List α → List (List α)
  | 0, _ => []
  | _, [] => []
  | fuel + 1, a :: l => (a :: l).take k :: chunksAux k fuel ((a :: l).drop k)

/-- Split a list into consecutive chunks of size `k` (the last chunk may be
shorter).  `chunks 0 l = []`. -/
def chunks (k : ℕ) (l : List α) : List (List α) :=
  if k = 0 then [] else chunksAux k l.length l

/-! ## Bit and byte codecs

Bits are naturals in `{0,1}`, bytes naturals below 256.  Bit order within
a byte / a packed channel group is most-significant-first; multi-byte
lengths are little-endian, as fixed conventions of the modelled codec. -/

/-- Value of an MSB-first bit list. -/
def bitsToNat (l : List ℕ) : ℕ := l.foldl (fun a b => 2 * a + b) 0

/-- MSB-first bit list of width `d` for `n % 2^d`. -/
def natToBits : ℕ → ℕ → List ℕ
  | 0, _ => []
  | d + 1, n => natToBits d (n / 2) ++ [n % 2]

/-- Bytes to bits, 8 MSB-first bits per byte. -/
def bytesToBits (bs : List ℕ) : List ℕ := flatMapL (natToBits 8) bs

/-- Bits to bytes, grouping 8 at a time (a trailing short group is
zero-padded on the least significant side by `bitsToNat`). -/
def bitsToBytes (l : List ℕ) : List ℕ := (chunks 8 l).map bitsToNat

/-- Little-endian variable-length byte representation of a natural
(empty for 0), via fuel for structural recursion. -/
def natToBytesAux : ℕ → ℕ → List ℕ
  | 0, _ => []
  | fuel + 1, n => if n = 0 then [] else n % 256 :: natToBytesAux fuel (n / 256)

def natToBytes (n : ℕ) : List ℕ := natToBytesAux n n

def bytesToNat : List ℕ → ℕ
  | [] => 0
  | b :: l => b + 256 * bytesToNat l

/-- Fixed 4-byte little-endian encoding (for lengths below `2^32`). -/
def natToBytes4 (n : ℕ) : List ℕ :=
  [n % 256, n / 256 % 256, n / 65536 % 256, n / 16777216 % 256]

def bytes4ToNat (bs : List ℕ) : ℕ :=
  match bs with
  | [a, b, c, d] => a + 256 * b + 65536 * c + 16777216 * d
  | _ => 0

/-- Fixed 2-byte little-endian encoding (for the 16-bit checksum). -/
def natToBytes2 (n : ℕ) : List ℕ := [n % 256, n / 256 % 256]

def bytes2ToNat (bs : List ℕ) : ℕ :=
  match bs with
  | [a, b] => a + 256 * b
  | _ => 0

/-! ## Payload transform pipeline (spec section 4.3)

The backend implementation of the codec is not part of the source tree;
each stage below is modelled from the spec, as noted per definition. -/

/-- Modelled from the spec: the optional "general-purpose lossless byte
compressor" (zlib in the surrounding documentation) is represented by an
executable lossless run-length coder: maximal runs of up to 255 equal
bytes become `(count, byte)` pairs. -/
def rleEncode : List ℕ → List (ℕ × ℕ)
  | [] => []
  | b :: rest =>
    match rleEncode rest with
    | [] => [(1, b)]
    | (n, c) :: ts => if c = b ∧ n < 255 then (n + 1, c) :: ts else (1, b) :: (n, c) :: ts

def rleDecode : List (ℕ × ℕ) → List ℕ
  | [] => []
  | (n, b) :: ts => List.replicate n b ++ rleDecode ts

/-- Group a flat byte list into `(count, byte)` pairs (inverse of the
flat serialization of the run list). -/
def pairUp : List ℕ → List (ℕ × ℕ)
  | n :: b :: rest => (n, b) :: pairUp rest
  | _ => []

/-- Modelled from the spec: compression stage — run-length pairs
serialized flat as `count, byte, count, byte, ...`. -/
def compressBytes (bs : List ℕ) : List ℕ :=
  flatMapL (fun p => [p.1, p.2]) (rleEncode bs)

/-- Modelled from the spec: decompression, the exact inverse of
`compressBytes`. -/
def decompressBytes (bs : List ℕ) : List ℕ := rleDecode (pairUp bs)

/-- Injective encoding of a byte list into a natural, used to derive the
key from the password so that distinct passwords give distinct keys. -/
def encodeListNat : List ℕ → ℕ
  | [] => 0
  | b :: l => Nat.pair b (encodeListNat l) + 1

/-- 64-bit rolling-polynomial digest of a byte list (the non-injective
message-compression side of the modelled cryptography). -/
def digestPoly (bs : List ℕ) : ℕ :=
  bs.foldl (fun a b => (a * 257 + b) % 18446744073709551616) 0

/-- Modelled from the spec: the password-based key-derivation function
(PBKDF2 in the surrounding documentation) — a key deterministically
derived from password and salt, collision-free in the password for a
fixed salt, standing in for a KDF whose practical collision probability
is negligible. -/
def kdf (password salt : List ℕ) : ℕ :=
  Nat.pair (encodeListNat password) (digestPoly salt)

/-- Modelled from the spec: the stream cipher's keystream byte at
position `i` under key `k`. -/
def ksByte (k i : ℕ) : ℕ := (k + 131 * i) % 256

def encByte (k i b : ℕ) : ℕ := (b + ksByte k i) % 256

def decByte (k i b : ℕ) : ℕ := (b + 256 - ksByte k i) % 256

def encBytesFrom (k : ℕ) : ℕ → List ℕ → List ℕ
  | _, [] => []
  | i, b :: l => encByte k i b :: encBytesFrom k (i + 1) l

def decBytesFrom (k : ℕ) : ℕ → List ℕ → List ℕ
  | _, [] => []
  | i, b :: l => decByte k i b :: decBytesFrom k (i + 1) l

/-- Modelled from the spec: the authentication tag of the authenticated
cipher (AES-256-GCM in the surrounding documentation) over nonce and
ciphertext under key `k`; verification with a different key always
fails, standing in for a MAC whose practical forgery probability is
negligible. -/
def macTag (k : ℕ) (msg : List ℕ) : ℕ := Nat.pair k (digestPoly msg)

/-- Modelled from the spec: encryption stage — output is
`salt ∥ nonce ∥ ciphertext-length (4 bytes) ∥ ciphertext ∥ authentication
tag`, with an 8-byte salt and 12-byte nonce supplied by the caller's
randomness. -/
def encryptStage (password salt nonce pt : List ℕ) : List ℕ :=
  let k := kdf password salt
  let ct := encBytesFrom k 0 pt
  let tag := macTag k (nonce ++ ct)
  salt ++ nonce ++ natToBytes4 ct.length ++ ct ++ natToBytes tag

inductive StegoError
  | capacityExceeded
  | invalidParameter
  | noHiddenData
  | corruptPayload
  | decryptionError
  | unsupportedCombination
deriving DecidableEq

/-- Modelled from the spec: decryption stage — re-derive the key from the
embedded salt and the supplied password, recompute the authentication tag
over nonce and ciphertext, and fail with `DecryptionError` at tag
verification unless it matches; only then decrypt. -/
def decryptStage (password env : List ℕ) : Except StegoError (List ℕ) :=
  let salt := env.take 8
  let rest := env.drop 8
  let nonce := rest.take 12
  let rest2 := rest.drop 12
  let ctLen := bytes4ToNat (rest2.take 4)
  let body := rest2.drop 4
  let ct := body.take ctLen
  let tagBytes := body.drop ctLen
  if env.length < 24 ∨ body.length < ctLen then .error .decryptionError
  else
    let k := kdf password salt
    if bytesToNat tagBytes = macTag k (nonce ++ ct) then .ok (decBytesFrom k 0 ct)
    else .error .decryptionError

/-- Modelled from the spec: repetition factor per error-correction level
(0 = none, 1 = low, 2 = medium, 3 = high). -/
def eccFactor : ℕ → ℕ
  | 0 => 1
  | 1 => 3
  | 2 => 5
  | _ => 7

/-- Modelled from the spec: error-correction stage — each byte is
repeated `r` times. -/
def eccEncode (r : ℕ) (bs : List ℕ) : List ℕ := flatMapL (List.replicate r) bs

/-- Majority vote over one repetition block (tolerates a bounded number
of corrupted copies per symbol). -/
def majorityVote (c : List ℕ) : ℕ :=
  c.foldl (fun best x => if c.count x > c.count best then x else best) (c.headD 0)

/-- Modelled from the spec: error-correction decode — majority vote over
each block of `r` repeated copies. -/
def eccDecode (r : ℕ) (bs : List ℕ) : List ℕ := (chunks r bs).map majorityVote

/-- Modelled from the spec: the 16-bit integrity checksum of the
transformed payload stored in the header. -/
def checksum16 (bs : List ℕ) : ℕ := (bs.foldl (fun a b => a + b) 0) % 65536

/-- Encode-side transform parameters: compress?, password (encryption
iff present), error-correction level 0-3. -/
structure TransformParams where
  compress : Bool
  password : Option (List ℕ)
  eccLevel : ℕ

/-- Modelled from the spec: the transform pipeline in its fixed order —
compress, then encrypt, then error-correct; each enabled stage feeds the
next. -/
def applyPipeline (tp : TransformParams) (salt nonce payload : List ℕ) : List ℕ :=
  let s1 := if tp.compress then compressBytes payload else payload
  let s2 := match tp.password with
    | some pw => encryptStage pw salt nonce s1
    | none => s1
  let s3 := if tp.eccLevel ≠ 0 then eccEncode (eccFactor tp.eccLevel) s2 else s2
  s3

/-- Modelled from the spec: the inverse pipeline in exact reverse order —
error-correction decode, then decrypt, then decompress — with each
inverse stage selected by the corresponding header flag. -/
def invPipeline (password : Option (List ℕ)) (compressed encrypted : Bool)
    (eccLevel : ℕ) (bs : List ℕ) : Except StegoError (List ℕ) :=
  let s1 := if eccLevel ≠ 0 then eccDecode (eccFactor eccLevel) bs else bs
  match
    (if encrypted then
      match password with
      | some pw => decryptStage pw s1
      | none => .error .decryptionError
    else .ok s1 : Except StegoError (List ℕ)) with
  | .error e => .error e
  | .ok s2 => .ok (if compressed then decompressBytes s2 else s2)

/-! ## Header codec (spec sections 3 and 4.1)

Modelled from the spec: a fixed-size 12-byte preamble — magic marker,
version, flags bitmask {compressed, encrypted, error-corrected level},
bits-per-channel, channel mask, payload length (post-transform, 4 bytes
little-endian), 16-bit integrity checksum — always embedded at 1 bit per
channel across R, G, B at the start of raster order. -/

structure ChannelMask where
  r : Bool
  g : Bool
  b : Bool
deriving DecidableEq

def ChannelMask.count (m : ChannelMask) : ℕ :=
  (if m.r then 1 else 0) + (if m.g then 1 else 0) + (if m.b then 1 else 0)

def maskRGB : ChannelMask := ⟨true, true, true⟩

def maskByte (m : ChannelMask) : ℕ :=
  (if m.r then 1 else 0) + (if m.g then 2 else 0) + (if m.b then 4 else 0)

def byteToMask (x : ℕ) : ChannelMask :=
  ⟨decide (x % 2 = 1), decide (x / 2 % 2 = 1), decide (x / 4 % 2 = 1)⟩

structure EmbeddingHeader where
  compressed : Bool
  encrypted : Bool
  eccLevel : ℕ
  bitsPerChannel : ℕ
  mask : ChannelMask
  payloadLength : ℕ
  chk : ℕ
deriving DecidableEq

def magicBytes : List ℕ := [83, 84]

def flagsByte (h : EmbeddingHeader) : ℕ :=
  (if h.compressed then 1 else 0) + (if h.encrypted then 2 else 0) + 4 * h.eccLevel

/-- Modelled from the spec: fixed 12-byte header serialization
`magic(2) ∥ version(1) ∥ flags(1) ∥ bits_per_channel(1) ∥ mask(1) ∥
payload_length(4, LE) ∥ checksum(2, LE)`. -/
def serializeHeader (h : EmbeddingHeader) : List ℕ :=
  magicBytes ++ [1, flagsByte h, h.bitsPerChannel, maskByte h.mask]
    ++ natToBytes4 h.payloadLength ++ natToBytes2 h.chk

/-- Modelled from the spec: header parsing.  A magic-marker mismatch (or a
truncated read) is the canonical "no hidden data" condition; an
unrecognized version is the forward-compatibility guard. -/
def parseHeader (bs : List ℕ) : Except StegoError EmbeddingHeader :=
  match bs with
  | [m0, m1, ver, fl, bpc, mk, l0, l1, l2, l3, c0, c1] =>
    if m0 = 83 ∧ m1 = 84 then
      if ver = 1 then
        .ok ⟨decide (fl % 2 = 1), decide (fl / 2 % 2 = 1), fl / 4 % 4, bpc,
          byteToMask mk, bytes4ToNat [l0, l1, l2, l3], bytes2ToNat [c0, c1]⟩
      else .error .unsupportedCombination
    else .error .noHiddenData
  | _ => .error .noHiddenData

/-! ## Image model and bit packer/unpacker (spec sections 3 and 4.4)

An image is a width×height raster of RGB pixels (an alpha channel, were
it present, is never used for embedding and is omitted from the model).
The packer walks the channel values in raster order, channel order
R, G, B, writing one `d`-bit group into the low `d` bits of each selected
channel and leaving unselected channels and high-order bits unchanged;
the unpacker is the corresponding pure read. -/

structure Image where
  width : ℕ
  height : ℕ
  pix : List (ℕ × ℕ × ℕ)
deriving DecidableEq

/-- Replace the low `d` bits of channel value `v` by `x` (for `x < 2^d`),
preserving the high-order bits. -/
def setLow (d v x : ℕ) : ℕ := v / 2 ^ d * 2 ^ d + x

/-- Read the low `d` bits of channel value `v`. -/
def getLow (d v : ℕ) : ℕ := v % 2 ^ d

/-- Raster-order channel stream of an image region, each channel value
tagged with whether its channel is selected by the mask. -/
def tagChannels (m : ChannelMask) (pix : List (ℕ × ℕ × ℕ)) : List (Bool × ℕ) :=
  flatMapL (fun p => [(m.r, p.1), (m.g, p.2.1), (m.b, p.2.2)]) pix

/-- Modelled from the spec: pack — write one `d`-bit group into each
selected channel in stream order, threading the remaining groups;
unselected channels, and all channels once the groups are exhausted, are
passed through unchanged. -/
def packStream (d : ℕ) : List (Bool × ℕ) → List ℕ → List (Bool × ℕ)
  | [], _ => []
  | (sel, v) :: rest, gs =>
    if sel then
      match gs with
      | [] => (sel, v) :: packStream d rest []
      | x :: gs2 => (sel, setLow d v x) :: packStream d rest gs2
    else (sel, v) :: packStream d rest gs

/-- Modelled from the spec: unpack — the pure read of the low `d` bits of
every selected channel in stream order. -/
def unpackStream (d : ℕ) : List (Bool × ℕ) → List ℕ
  | [] => []
  | (sel, v) :: rest =>
    if sel then getLow d v :: unpackStream d rest else unpackStream d rest

/-- The value a single channel receives from one `packStream` step. -/
def packChanValue (d : ℕ) (sel : Bool) (v : ℕ) (gs : List ℕ) : ℕ :=
  if sel then
    match gs with
    | [] => v
    | x :: _ => setLow d v x
  else v

/-- The groups remaining after one `packStream` step. -/
def packChanRest (sel : Bool) (gs : List ℕ) : List ℕ :=
  if sel then gs.tail else gs

/-- Number of selected channel slots in a tagged stream. -/
def selCount : List (Bool × ℕ) → ℕ
  | [] => 0
  | (sel, _) :: rest => (if sel then 1 else 0) + selCount rest

/-- Regroup a flat channel-value list into RGB pixels. -/
def channelsToPix : List ℕ → List (ℕ × ℕ × ℕ)
  | a :: b :: c :: rest => (a, b, c) :: channelsToPix rest
  | _ => []

def pixFromTagged (ts : List (Bool × ℕ)) : List (ℕ × ℕ × ℕ) :=
  channelsToPix (ts.map Prod.snd)

/-- Split an MSB-first bitstream into `d`-bit group values, zero-padding
the final group on the least-significant side. -/
def bitsToGroups (d : ℕ) (bits : List ℕ) : List ℕ :=
  (chunks d bits).map (fun c => bitsToNat (c ++ List.replicate (d - c.length) 0))

/-! ## Codec orchestrator (spec section 4.6)

Modelled from the spec: encode validates, transforms, computes
length+checksum, checks capacity (all before any pixel is produced), then
writes the header at fixed depth 1 over R,G,B into the leading 32 pixels
(96 header bits) and the payload immediately after at the configured
depth and mask.  Decode reads the header blind, re-reads the payload with
the header's parameters, verifies the checksum, then runs the inverse
transforms. -/

/-- The header occupies the leading 32 pixels: 12 bytes = 96 bits at
1 bit per channel over R, G, B. -/
def headerPixelCount : ℕ := 32

/-- Modelled from the spec: the encode-time capacity check — the padded
payload groups must fit in the selected channel slots of the pixels after
the header region, and the stored length must fit its 4-byte field. -/
def fitsCapacity (img : Image) (m : ChannelMask) (d len : ℕ) : Bool :=
  decide (headerPixelCount ≤ img.pix.length) &&
  decide ((8 * len + d - 1) / d ≤ (img.pix.length - headerPixelCount) * m.count) &&
  decide (len < 4294967296)

structure EncodeParams where
  bitsPerChannel : ℕ
  mask : ChannelMask
  compress : Bool
  password : Option (List ℕ)
  eccLevel : ℕ

/-- The header encode assembles: transform flags, the payload's depth and
mask, the transformed length, and the checksum of the transformed
payload `t`. -/
def encHeader (p : EncodeParams) (t : List ℕ) : EmbeddingHeader :=
  ⟨p.compress, p.password.isSome, p.eccLevel, p.bitsPerChannel, p.mask,
    t.length, checksum16 t⟩

/-- Modelled from the spec: the encode orchestrator.  `salt` and `nonce`
stand for the freshly generated randomness of the encryption stage.  All
validation and the capacity check precede the construction of the output
image; any failure returns an error and no image. -/
def encode (img : Image) (payload : List ℕ) (p : EncodeParams)
    (salt nonce : List ℕ) : Except StegoError Image :=
  if ¬(1 ≤ p.bitsPerChannel ∧ p.bitsPerChannel ≤ 8) then .error .invalidParameter
  else if ¬(p.mask.r ∨ p.mask.g ∨ p.mask.b) then .error .invalidParameter
  else if ¬(p.eccLevel < 4) then .error .invalidParameter
  else
    let t := applyPipeline ⟨p.compress, p.password, p.eccLevel⟩ salt nonce payload
    if ¬ fitsCapacity img p.mask p.bitsPerChannel t.length then .error .capacityExceeded
    else
      let hdr : EmbeddingHeader := encHeader p t
      let hdrBits := bytesToBits (serializeHeader hdr)
      let headerRegion :=
        packStream 1 (tagChannels maskRGB (img.pix.take headerPixelCount)) hdrBits
      let groups := bitsToGroups p.bitsPerChannel (bytesToBits t)
      let bodyRegion :=
        packStream p.bitsPerChannel
          (tagChannels p.mask (img.pix.drop headerPixelCount)) groups
      .ok ⟨img.width, img.height, pixFromTagged headerRegion ++ pixFromTagged bodyRegion⟩

/-- The blind header read: the low bit of every R, G, B channel of the
leading 32 pixels, in raster order, regrouped into 12 bytes — no
parameters beyond the image itself. -/
def readHeader (img : Image) : Except StegoError EmbeddingHeader :=
  parseHeader (bitsToBytes (unpackStream 1
    (tagChannels maskRGB (img.pix.take headerPixelCount))))

/-- Modelled from the spec: the decode orchestrator — blind header read at
fixed depth, payload re-read at the header's depth/mask/length, checksum
verification, then the inverse transform pipeline. -/
def decode (img : Image) (password : Option (List ℕ)) : Except StegoError (List ℕ) :=
  match readHeader img with
  | .error e => .error e
  | .ok hdr =>
    if ¬(1 ≤ hdr.bitsPerChannel ∧ hdr.bitsPerChannel ≤ 8) then
      .error .unsupportedCombination
    else if ¬(hdr.mask.r ∨ hdr.mask.g ∨ hdr.mask.b) then
      .error .unsupportedCombination
    else
      let gs := unpackStream hdr.bitsPerChannel
        (tagChannels hdr.mask (img.pix.drop headerPixelCount))
      let bits := (flatMapL (natToBits hdr.bitsPerChannel) gs).take
        (8 * hdr.payloadLength)
      let t := bitsToBytes bits
      if t.length ≠ hdr.payloadLength then .error .corruptPayload
      else if checksum16 t ≠ hdr.chk then .error .corruptPayload
      else invPipeline password hdr.compressed hdr.encrypted hdr.eccLevel t

/-! ## Concrete instances used by the witnesses -/

def c1Img : Image := ⟨10, 6, (List.range 60).map (fun i => (i, 100 + i, 155 + i % 100))⟩

def c1Payload : List ℕ := [72, 73]

def c1Params : EncodeParams := ⟨8, maskRGB, true, some [1, 2], 0⟩

def c1Salt : List ℕ := [1, 2, 3, 4, 5, 6, 7, 8]

def c1Nonce : List ℕ := [1, 2, 3, 4, 5, 6, 7, 8, 9, 10, 11, 12]

def c3Img : Image := ⟨8, 5, (List.range 40).map (fun i => (255, i, 2 * i))⟩

def c3Params : EncodeParams := ⟨3, ⟨true, false, true⟩, false, none, 1⟩

def c6Params : EncodeParams := ⟨8, maskRGB, false, some [1], 0⟩

def c7Hdr : EmbeddingHeader := ⟨false, false, 0, 1, maskRGB, 0, 1⟩

/-- A 32-pixel image carrying a well-formed header (payload length 0) whose
stored checksum (1) cannot match the checksum of the empty extracted
payload (0). -/
def c7Img : Image := ⟨8, 4, channelsToPix (bytesToBits (serializeHeader c7Hdr))⟩

def c5SmallImg : Image := ⟨2, 2, [(0, 0, 0), (1, 1, 1), (2, 2, 2), (3, 3, 3)]⟩

end ImageLab

/-! ### End of definitions; lemmas and claim theorems follow. -/

namespace ImageLab

/-- C2, counterexample: no single constant overhead `k` makes the frontend's
reported usable capacity equal `floor(W*H*3/8) - k` for all image sizes:
at 100×100 the code reports 3650 (forcing `k = 100`), but at 1×1 it
reports 0 rather than `-100`, because the code clamps at zero. -/
theorem usableCapacity_no_exact_constant_overhead :
    ¬ ∃ k : ℤ, ∀ W H : ℕ,
      usableCapacity W H 3 1 = ((W : ℤ) * (H : ℤ) * 3 * 1) / 8 - k := by
  rintro ⟨k, hk⟩
  have h1 := hk 100 100
  have h2 := hk 1 1
  simp only [usableCapacity] at h1 h2
  norm_num at h1 h2
  omega

/-- C2, amended: the frontend's usable capacity equals the spec formula with
`header_bits_reserved = 0` and `safety_margin = 100`, with the margin
subtracted in bytes after the division by 8 and the result clamped below
at zero: `usable = max 0 (floor(W*H*|mask|*depth/8) - 100)`. -/
theorem usableCapacity_eq_clamped_spec_formula
    (W H c b : ℕ) :
    usableCapacity W H c b = max 0 (specUsableCapacity W H c b 0 100) := by
  simp [usableCapacity, specUsableCapacity]

/-- C8: for fixed image dimensions, the frontend usable capacity is monotone
non-decreasing in bits_per_channel and in the number of selected
channels. -/
theorem usableCapacity_monotone (W H : ℕ) (c c' b b' : ℕ) :
    (b ≤ b' → usableCapacity W H c b ≤ usableCapacity W H c b') ∧
    (c ≤ c' → usableCapacity W H c b ≤ usableCapacity W H c' b) := by
  constructor
  · intro hb
    apply max_le_max le_rfl
    apply Int.sub_le_sub_right
    apply Int.ediv_le_ediv (by norm_num)
    have : (b : ℤ) ≤ (b' : ℤ) := by exact_mod_cast hb
    exact mul_le_mul_of_nonneg_left this (by positivity)
  · intro hc
    apply max_le_max le_rfl
    apply Int.sub_le_sub_right
    apply Int.ediv_le_ediv (by norm_num)
    have : (c : ℤ) ≤ (c' : ℤ) := by exact_mod_cast hc
    apply mul_le_mul_of_nonneg_right _ (by positivity)
    exact mul_le_mul_of_nonneg_left this (by positivity)

/-- C8 witness: monotonicity at a concrete instance — a 10×10 image,
depth 1 vs 4 and 1 vs 3 channels. -/
theorem usableCapacity_monotone_witness :
    usableCapacity 10 10 3 1 ≤ usableCapacity 10 10 3 4 ∧
    usableCapacity 10 10 1 1 ≤ usableCapacity 10 10 3 1 :=
  ⟨(usableCapacity_monotone 10 10 3 3 1 4).1 (by norm_num),
   (usableCapacity_monotone 10 10 1 3 1 1).2 (by norm_num)⟩

/-- C9: two runs of the frontend's `handleEncode` request construction that
differ only in the selected channel mask and the compress switch build
identical requests — the channels and compress settings never reach the
hide-text / hide-file form data. -/
theorem handleEncodeRequest_ignores_channels_compress
    (s : EncodeUIState) (ch1 ch2 : List String) (cp1 cp2 : Bool) :
    handleEncodeRequest { s with channels := ch1, compress := cp1 } =
    handleEncodeRequest { s with channels := ch2, compress := cp2 } := rfl

/-- C10: the frontend capacity estimate is always nonnegative and equals
`max 0 (floor(width*height*|channels|*bits/8) - 100)`: images too small to
hold the fixed 100-byte overhead report 0, never a negative number. -/
theorem usableCapacity_nonneg_closed_form (W H c b : ℕ) :
    0 ≤ usableCapacity W H c b ∧
    usableCapacity W H c b = max 0 (((W : ℤ) * H * c * b) / 8 - 100) :=
  ⟨le_max_left 0 _, rfl⟩

end ImageLab

namespace ImageLab

/-! ### List utility lemmas -/

@[simp] lemma flatMapL_nil (f : α → List β) : flatMapL f [] = [] := rfl

@[simp] lemma flatMapL_cons (f : α → List β) (a : α) (l : List α) :
    flatMapL f (a :: l) = f a ++ flatMapL f l := rfl

lemma flatMapL_append (f : α → List β) (l1 l2 : List α) :
    flatMapL f (l1 ++ l2) = flatMapL f l1 ++ flatMapL f l2 := by
  induction l1 with
  | nil => rfl
  | cons a l ih => simp [ih]

lemma chunksAux_fuel_irrel (k : ℕ) :
    ∀ fuel : ℕ, ∀ l : List α, l.length ≤ fuel → 0 < k →
      chunksAux k fuel l = chunksAux k l.length l := by
  intro fuel
  induction fuel using Nat.strong_induction_on with
  | _ fuel ih =>
    intro l hlen hk
    match fuel, l with
    | 0, [] => rfl
    | 0, a :: l => simp at hlen
    | f + 1, [] => rfl
    | f + 1, a :: l =>
      show (a :: l).take k :: chunksAux k f ((a :: l).drop k) =
        chunksAux k (a :: l).length (a :: l)
      have hlen2 : (a :: l).length = l.length + 1 := rfl
      rw [hlen2]
      show _ = (a :: l).take k :: chunksAux k l.length ((a :: l).drop k)
      congr 1
      have hd : ((a :: l).drop k).length ≤ f := by
        simp only [List.length_drop]
        simp only [List.length_cons] at hlen ⊢
        omega
      have hd2 : ((a :: l).drop k).length ≤ l.length := by
        simp only [List.length_drop]
        simp only [List.length_cons]
        omega
      have hlf : l.length ≤ f := by
        simp only [List.length_cons] at hlen
        omega
      rw [ih f (by omega) _ hd hk, ih l.length (by omega) _ hd2 hk]

@[simp] lemma chunks_nil (k : ℕ) : chunks k ([] : List α) = [] := by
  cases k <;> rfl

lemma chunks_cons_eq (k : ℕ) (hk : 0 < k) (l : List α) (hl : l ≠ []) :
    chunks k l = l.take k :: chunks k (l.drop k) := by
  match l with
  | [] => exact absurd rfl hl
  | a :: l =>
    show chunks k (a :: l) = _
    unfold chunks
    rw [if_neg (by omega), if_neg (by omega)]
    show chunksAux k (l.length + 1) (a :: l) = _
    show (a :: l).take k :: chunksAux k l.length ((a :: l).drop k) = _
    congr 1
    have hd : ((a :: l).drop k).length ≤ l.length := by
      simp only [List.length_drop, List.length_cons]
      omega
    rw [chunksAux_fuel_irrel k l.length _ hd hk]

lemma chunks_append_of_length (k : ℕ) (hk : 0 < k) (x y : List α)
    (hx : x.length = k) : chunks k (x ++ y) = x :: chunks k y := by
  have hxne : x ≠ [] := by
    intro h
    rw [h] at hx
    simp at hx
    omega
  have hne : x ++ y ≠ [] := by
    intro h
    rcases List.append_eq_nil.mp h with ⟨h1, _⟩
    exact hxne h1
  rw [chunks_cons_eq k hk _ hne, List.take_left' hx, List.drop_left' hx]

lemma chunks_flatMapL (k : ℕ) (hk : 0 < k) (f : α → List β)
    (hf : ∀ a, (f a).length = k) (l : List α) :
    chunks k (flatMapL f l) = l.map f := by
  induction l with
  | nil => simp
  | cons a l ih =>
    rw [flatMapL_cons, chunks_append_of_length k hk _ _ (hf a), ih]
    rfl

/-- Rejoining the chunks of `l`, zero-padding each chunk to width `k` on the
right, yields `l` followed by some run of zeros. -/
lemma flatMapL_pad_chunks (k : ℕ) (hk : 0 < k) :
    ∀ l : List ℕ, ∃ m : ℕ,
      flatMapL (fun c => c ++ List.replicate (k - c.length) 0) (chunks k l) =
        l ++ List.replicate m 0 := by
  suffices H : ∀ n : ℕ, ∀ l : List ℕ, l.length = n → ∃ m : ℕ,
      flatMapL (fun c => c ++ List.replicate (k - c.length) 0) (chunks k l) =
        l ++ List.replicate m 0 by
    intro l
    exact H l.length l rfl
  intro n
  induction n using Nat.strong_induction_on with
  | _ n ih =>
    intro l hn
    match l with
    | [] => exact ⟨0, by simp⟩
    | a :: l =>
      rw [chunks_cons_eq k hk _ (by simp), flatMapL_cons]
      by_cases hlong : k ≤ (a :: l).length
      · have htk : ((a :: l).take k).length = k := by
          simp only [List.length_take, List.length_cons]
          simp only [List.length_cons] at hlong
          omega
        have hdr : ((a :: l).drop k).length < n := by
          simp only [List.length_drop]
          subst hn
          simp only [List.length_cons] at hlong ⊢
          omega
        obtain ⟨m, hm⟩ := ih _ hdr ((a :: l).drop k) rfl
        refine ⟨m, ?_⟩
        rw [htk, Nat.sub_self, List.replicate_zero, List.append_nil, hm,
          ← List.append_assoc, List.take_append_drop]
      · push_neg at hlong
        have htk : (a :: l).take k = a :: l := List.take_of_length_le (by omega)
        have hdr : (a :: l).drop k = [] := List.drop_eq_nil_of_le (by omega)
        refine ⟨k - (a :: l).length, ?_⟩
        rw [hdr, htk]
        simp

lemma chunks_length_le (k : ℕ) (hk : 0 < k) :
    ∀ l : List α, ∀ c ∈ chunks k l, c.length ≤ k := by
  suffices H : ∀ n : ℕ, ∀ l : List α, l.length = n →
      ∀ c ∈ chunks k l, c.length ≤ k by
    intro l
    exact H l.length l rfl
  intro n
  induction n using Nat.strong_induction_on with
  | _ n ih =>
    intro l hn
    match l with
    | [] => simp
    | a :: l =>
      rw [chunks_cons_eq k hk _ (by simp)]
      intro c hc
      rcases List.mem_cons.mp hc with h | h
      · subst h
        simp [List.length_take]
      · have hdr : ((a :: l).drop k).length < n := by
          simp only [List.length_drop]
          subst hn
          simp only [List.length_cons]
          omega
        exact ih _ hdr _ rfl c h

lemma chunks_mem_bits (k : ℕ) (hk : 0 < k) :
    ∀ l : List ℕ, (∀ b ∈ l, b < 2) → ∀ c ∈ chunks k l, ∀ b ∈ c, b < 2 := by
  suffices H : ∀ n : ℕ, ∀ l : List ℕ, l.length = n → (∀ b ∈ l, b < 2) →
      ∀ c ∈ chunks k l, ∀ b ∈ c, b < 2 by
    intro l
    exact H l.length l rfl
  intro n
  induction n using Nat.strong_induction_on with
  | _ n ih =>
    intro l hn
    match l with
    | [] => simp
    | a :: l =>
      intro hbits
      rw [chunks_cons_eq k hk _ (by simp)]
      intro c hc
      rcases List.mem_cons.mp hc with h | h
      · subst h
        intro b hb
        exact hbits b (List.mem_of_mem_take hb)
      · have hdr : ((a :: l).drop k).length < n := by
          simp only [List.length_drop]
          subst hn
          simp only [List.length_cons]
          omega
        refine ih _ hdr _ rfl (fun b hb => hbits b (List.mem_of_mem_drop hb)) c h

end ImageLab

namespace ImageLab

/-! ### Bit and byte codec lemmas -/

@[simp] lemma natToBits_length (d n : ℕ) : (natToBits d n).length = d := by
  induction d generalizing n with
  | zero => rfl
  | succ d ih => simp [natToBits, ih]

lemma natToBits_mem_lt (d n : ℕ) : ∀ b ∈ natToBits d n, b < 2 := by
  induction d generalizing n with
  | zero => simp [natToBits]
  | succ d ih =>
    intro b hb
    simp only [natToBits, List.mem_append, List.mem_singleton] at hb
    rcases hb with h | h
    · exact ih _ b h
    · subst h
      omega

lemma bitsToNat_go (l : List ℕ) :
    ∀ a : ℕ, l.foldl (fun a b => 2 * a + b) a = a * 2 ^ l.length + bitsToNat l := by
  induction l with
  | nil => simp [bitsToNat]
  | cons x l ih =>
    intro a
    show l.foldl _ (2 * a + x) = _
    rw [ih (2 * a + x)]
    have hx : bitsToNat (x :: l) = x * 2 ^ l.length + bitsToNat l := by
      show l.foldl _ (2 * 0 + x) = _
      rw [ih (2 * 0 + x)]
      ring_nf
    rw [hx]
    simp [List.length_cons]
    ring

lemma bitsToNat_cons (x : ℕ) (l : List ℕ) :
    bitsToNat (x :: l) = x * 2 ^ l.length + bitsToNat l := by
  show l.foldl _ (2 * 0 + x) = _
  rw [bitsToNat_go l (2 * 0 + x)]
  ring_nf

lemma bitsToNat_append (l1 l2 : List ℕ) :
    bitsToNat (l1 ++ l2) = bitsToNat l1 * 2 ^ l2.length + bitsToNat l2 := by
  show (l1 ++ l2).foldl _ 0 = _
  rw [List.foldl_append, bitsToNat_go l2]
  rfl

@[simp] lemma bitsToNat_nil : bitsToNat [] = 0 := rfl

lemma bitsToNat_lt (l : List ℕ) (h : ∀ b ∈ l, b < 2) :
    bitsToNat l < 2 ^ l.length := by
  induction l with
  | nil => simp
  | cons x l ih =>
    rw [bitsToNat_cons]
    have hx : x < 2 := h x (by simp)
    have hl : bitsToNat l < 2 ^ l.length := ih (fun b hb => h b (by simp [hb]))
    have : x * 2 ^ l.length ≤ 2 ^ l.length := by
      calc x * 2 ^ l.length ≤ 1 * 2 ^ l.length := by
            exact Nat.mul_le_mul_right _ (by omega)
        _ = 2 ^ l.length := by ring
    simp only [List.length_cons, pow_succ]
    omega

lemma bitsToNat_replicate_zero (m : ℕ) : bitsToNat (List.replicate m 0) = 0 := by
  induction m with
  | zero => rfl
  | succ m ih =>
    rw [List.replicate_succ, bitsToNat_cons, ih]
    simp

lemma bitsToNat_natToBits (d n : ℕ) (h : n < 2 ^ d) :
    bitsToNat (natToBits d n) = n := by
  induction d generalizing n with
  | zero =>
    simp [natToBits]
    omega
  | succ d ih =>
    show bitsToNat (natToBits d (n / 2) ++ [n % 2]) = n
    rw [bitsToNat_append]
    have hd : n / 2 < 2 ^ d := by
      rw [pow_succ] at h
      omega
    rw [ih _ hd]
    simp [bitsToNat_cons]
    omega

lemma natToBits_bitsToNat (l : List ℕ) (h : ∀ b ∈ l, b < 2) :
    natToBits l.length (bitsToNat l) = l := by
  induction l using List.reverseRecOn with
  | nil => rfl
  | append_singleton l x ih =>
    rw [bitsToNat_append]
    simp only [List.length_append, List.length_singleton]
    show natToBits (l.length + 1) _ = _
    have hx : x < 2 := h x (by simp)
    have hbit : bitsToNat [x] = x := by simp [bitsToNat_cons]
    rw [hbit]
    show natToBits l.length ((bitsToNat l * 2 ^ 1 + x) / 2) ++
      [(bitsToNat l * 2 ^ 1 + x) % 2] = _
    have h2 : (bitsToNat l * 2 ^ 1 + x) / 2 = bitsToNat l := by omega
    have h3 : (bitsToNat l * 2 ^ 1 + x) % 2 = x := by omega
    rw [h2, h3, ih (fun b hb => h b (by simp [hb]))]

lemma bytesToBits_length (bs : List ℕ) : (bytesToBits bs).length = 8 * bs.length := by
  induction bs with
  | nil => rfl
  | cons b l ih =>
    simp only [bytesToBits, flatMapL_cons, List.length_append, List.length_cons]
    simp only [bytesToBits] at ih
    rw [ih, natToBits_length]
    ring

lemma bytesToBits_mem_lt (bs : List ℕ) : ∀ b ∈ bytesToBits bs, b < 2 := by
  induction bs with
  | nil => simp [bytesToBits]
  | cons x l ih =>
    intro b hb
    simp only [bytesToBits, flatMapL_cons, List.mem_append] at hb
    rcases hb with h | h
    · exact natToBits_mem_lt 8 x b h
    · exact ih b h

lemma bitsToBytes_bytesToBits (bs : List ℕ) (h : ∀ b ∈ bs, b < 256) :
    bitsToBytes (bytesToBits bs) = bs := by
  unfold bitsToBytes bytesToBits
  rw [chunks_flatMapL 8 (by omega) _ (fun a => natToBits_length 8 a)]
  rw [List.map_map]
  have : ∀ x ∈ bs, (bitsToNat ∘ natToBits 8) x = id x := by
    intro x hx
    exact bitsToNat_natToBits 8 x (h x hx)
  rw [List.map_congr_left this, List.map_id]

lemma bitsToBytes_append_of_length (l1 l2 : List ℕ) (h : l1.length = 8) :
    bitsToBytes (l1 ++ l2) = bitsToNat l1 :: bitsToBytes l2 := by
  unfold bitsToBytes
  rw [chunks_append_of_length 8 (by omega) _ _ h]
  rfl

lemma bytesToNat_natToBytesAux (fuel n : ℕ) (h : n ≤ fuel) :
    bytesToNat (natToBytesAux fuel n) = n := by
  induction fuel using Nat.strong_induction_on generalizing n with
  | _ fuel ih =>
    match fuel with
    | 0 =>
      have : n = 0 := by omega
      subst this
      rfl
    | f + 1 =>
      show bytesToNat (if n = 0 then [] else n % 256 :: natToBytesAux f (n / 256)) = n
      by_cases hn : n = 0
      · subst hn
        rfl
      · rw [if_neg hn]
        show n % 256 + 256 * bytesToNat (natToBytesAux f (n / 256)) = n
        have hfd : n / 256 ≤ f := by omega
        rw [ih f (by omega) _ hfd]
        omega

lemma bytesToNat_natToBytes (n : ℕ) : bytesToNat (natToBytes n) = n :=
  bytesToNat_natToBytesAux n n le_rfl

lemma natToBytesAux_mem_lt (fuel n : ℕ) : ∀ b ∈ natToBytesAux fuel n, b < 256 := by
  induction fuel generalizing n with
  | zero => simp [natToBytesAux]
  | succ f ih =>
    intro b hb
    simp only [natToBytesAux] at hb
    by_cases hn : n = 0
    · simp [hn] at hb
    · rw [if_neg hn] at hb
      rcases List.mem_cons.mp hb with h | h
      · subst h
        omega
      · exact ih _ b h

lemma natToBytes_mem_lt (n : ℕ) : ∀ b ∈ natToBytes n, b < 256 :=
  natToBytesAux_mem_lt n n

lemma bytes4ToNat_natToBytes4 (n : ℕ) (h : n < 4294967296) :
    bytes4ToNat (natToBytes4 n) = n := by
  simp only [natToBytes4, bytes4ToNat]
  omega

lemma natToBytes4_mem_lt (n : ℕ) : ∀ b ∈ natToBytes4 n, b < 256 := by
  simp only [natToBytes4, List.mem_cons]
  intro b hb
  rcases hb with h | h | h | h | h <;> first
    | (subst h; omega)
    | simp at h

@[simp] lemma natToBytes4_length (n : ℕ) : (natToBytes4 n).length = 4 := rfl

lemma bytes2ToNat_natToBytes2 (n : ℕ) (h : n < 65536) :
    bytes2ToNat (natToBytes2 n) = n := by
  simp only [natToBytes2, bytes2ToNat]
  omega

lemma natToBytes2_mem_lt (n : ℕ) : ∀ b ∈ natToBytes2 n, b < 256 := by
  simp only [natToBytes2, List.mem_cons]
  intro b hb
  rcases hb with h | h | h <;> first
    | (subst h; omega)
    | simp at h

@[simp] lemma natToBytes2_length (n : ℕ) : (natToBytes2 n).length = 2 := rfl

end ImageLab

namespace ImageLab

/-! ### Compression stage lemmas -/

lemma rleEncode_cons (b : ℕ) (rest : List ℕ) :
    rleEncode (b :: rest) = match rleEncode rest with
      | [] => [(1, b)]
      | (n, c) :: ts =>
        if c = b ∧ n < 255 then (n + 1, c) :: ts else (1, b) :: (n, c) :: ts := rfl

lemma rleDecode_rleEncode (l : List ℕ) : rleDecode (rleEncode l) = l := by
  induction l with
  | nil => rfl
  | cons b rest ih =>
    rcases hE : rleEncode rest with _ | ⟨⟨n, c⟩, ts⟩
    · have hR : rleEncode (b :: rest) = [(1, b)] := by rw [rleEncode_cons, hE]
      rw [hE] at ih
      simp only [rleDecode] at ih
      rw [hR]
      simp only [rleDecode]
      simp [← ih]
    · have hR : rleEncode (b :: rest) =
          if c = b ∧ n < 255 then (n + 1, c) :: ts else (1, b) :: (n, c) :: ts := by
        rw [rleEncode_cons, hE]
      rw [hE] at ih
      rw [hR]
      by_cases hcb : c = b ∧ n < 255
      · rw [if_pos hcb]
        simp only [rleDecode] at ih ⊢
        rw [hcb.1] at ih ⊢
        rw [List.replicate_succ, List.cons_append, ih]
      · rw [if_neg hcb]
        simp only [rleDecode] at ih ⊢
        rw [ih]
        rfl

lemma pairUp_flat (ps : List (ℕ × ℕ)) :
    pairUp (flatMapL (fun p => [p.1, p.2]) ps) = ps := by
  induction ps with
  | nil => rfl
  | cons p ts ih =>
    show pairUp (p.1 :: p.2 :: flatMapL _ ts) = p :: ts
    show (p.1, p.2) :: pairUp (flatMapL _ ts) = p :: ts
    rw [ih]

lemma decompressBytes_compressBytes (l : List ℕ) :
    decompressBytes (compressBytes l) = l := by
  unfold decompressBytes compressBytes
  rw [pairUp_flat, rleDecode_rleEncode]

lemma mem_flatMapL (f : α → List β) (l : List α) (x : β) :
    x ∈ flatMapL f l ↔ ∃ a ∈ l, x ∈ f a := by
  induction l with
  | nil => simp
  | cons a l ih =>
    simp only [flatMapL_cons, List.mem_append, ih, List.mem_cons]
    constructor
    · rintro (h | ⟨a2, ha2, hx⟩)
      · exact ⟨a, Or.inl rfl, h⟩
      · exact ⟨a2, Or.inr ha2, hx⟩
    · rintro ⟨a2, (rfl | ha2), hx⟩
      · exact Or.inl hx
      · exact Or.inr ⟨a2, ha2, hx⟩

lemma rleEncode_mem (l : List ℕ) :
    ∀ p ∈ rleEncode l, 1 ≤ p.1 ∧ p.1 ≤ 255 ∧ p.2 ∈ l := by
  induction l with
  | nil => simp [rleEncode]
  | cons b rest ih =>
    intro p hp
    rcases hE : rleEncode rest with _ | ⟨⟨n, c⟩, ts⟩
    · have hR : rleEncode (b :: rest) = [(1, b)] := by rw [rleEncode_cons, hE]
      rw [hR] at hp
      simp at hp
      subst hp
      simp
    · have hR : rleEncode (b :: rest) =
          if c = b ∧ n < 255 then (n + 1, c) :: ts else (1, b) :: (n, c) :: ts := by
        rw [rleEncode_cons, hE]
      rw [hR] at hp
      by_cases hcb : c = b ∧ n < 255
      · rw [if_pos hcb] at hp
        rcases List.mem_cons.mp hp with h | h
        · subst h
          have hnc := ih (n, c) (by rw [hE]; exact List.mem_cons_self _ _)
          refine ⟨by omega, by omega, ?_⟩
          show c ∈ b :: rest
          rw [hcb.1]
          exact List.mem_cons_self _ _
        · have := ih p (by rw [hE]; exact List.mem_cons_of_mem _ h)
          exact ⟨this.1, this.2.1, List.mem_cons_of_mem _ this.2.2⟩
      · rw [if_neg hcb] at hp
        rcases List.mem_cons.mp hp with h | h
        · subst h
          exact ⟨by omega, by omega, List.mem_cons_self _ _⟩
        · have := ih p (by rw [hE]; exact h)
          exact ⟨this.1, this.2.1, List.mem_cons_of_mem _ this.2.2⟩

lemma compressBytes_mem_lt (l : List ℕ) (h : ∀ b ∈ l, b < 256) :
    ∀ x ∈ compressBytes l, x < 256 := by
  intro x hx
  unfold compressBytes at hx
  obtain ⟨p, hp, hxp⟩ := (mem_flatMapL _ _ _).mp hx
  have hm := rleEncode_mem l p hp
  rcases List.mem_cons.mp hxp with h1 | h1
  · subst h1
    omega
  · simp at h1
    subst h1
    exact h _ hm.2.2

end ImageLab

namespace ImageLab

/-! ### Encryption stage lemmas -/

lemma encodeListNat_injective : Function.Injective encodeListNat := by
  intro l1
  induction l1 with
  | nil =>
    intro l2 h
    match l2 with
    | [] => rfl
    | b :: t =>
      exfalso
      simp [encodeListNat] at h
  | cons a t ih =>
    intro l2 h
    match l2 with
    | [] =>
      exfalso
      simp [encodeListNat] at h
    | b :: t2 =>
      simp only [encodeListNat, Nat.add_right_cancel_iff] at h
      obtain ⟨h1, h2⟩ := Nat.pair_eq_pair.mp h
      rw [h1, ih h2]

lemma kdf_injective_password (p1 p2 salt : List ℕ) (h : kdf p1 salt = kdf p2 salt) :
    p1 = p2 := by
  unfold kdf at h
  exact encodeListNat_injective (Nat.pair_eq_pair.mp h).1

lemma encBytesFrom_length (k : ℕ) : ∀ (i : ℕ) (l : List ℕ),
    (encBytesFrom k i l).length = l.length := by
  intro i l
  induction l generalizing i with
  | nil => rfl
  | cons b t ih => simp [encBytesFrom, ih]

lemma encBytesFrom_mem_lt (k : ℕ) : ∀ (i : ℕ) (l : List ℕ),
    ∀ x ∈ encBytesFrom k i l, x < 256 := by
  intro i l
  induction l generalizing i with
  | nil => simp [encBytesFrom]
  | cons b t ih =>
    intro x hx
    simp only [encBytesFrom, List.mem_cons] at hx
    rcases hx with h | h
    · subst h
      unfold encByte
      omega
    · exact ih _ x h

lemma decBytesFrom_encBytesFrom (k : ℕ) (l : List ℕ) (hl : ∀ b ∈ l, b < 256) :
    ∀ i : ℕ, decBytesFrom k i (encBytesFrom k i l) = l := by
  induction l with
  | nil => intro i; rfl
  | cons b t ih =>
    intro i
    show decByte k i (encByte k i b) :: decBytesFrom k (i + 1) (encBytesFrom k (i + 1) t)
      = b :: t
    rw [ih (fun x hx => hl x (by simp [hx])) (i + 1)]
    congr 1
    unfold decByte encByte ksByte
    have hb : b < 256 := hl b (by simp)
    omega

/-- The parsed pieces of a well-formed crypto envelope. -/
lemma envelope_parts (salt nonce pre tagB : List ℕ) (hs : salt.length = 8)
    (hn : nonce.length = 12) :
    let env := salt ++ nonce ++ natToBytes4 pre.length ++ pre ++ tagB
    env.take 8 = salt ∧
    (env.drop 8).take 12 = nonce ∧
    ((env.drop 8).drop 12).take 4 = natToBytes4 pre.length ∧
    (((env.drop 8).drop 12).drop 4) = pre ++ tagB := by
  intro env
  have h1 : env = salt ++ (nonce ++ (natToBytes4 pre.length ++ (pre ++ tagB))) := by
    simp [env, List.append_assoc]
  constructor
  · rw [h1, List.take_left' hs]
  · rw [h1, List.drop_left' hs, List.take_left' hn, List.drop_left' hn,
      List.take_left' (natToBytes4_length pre.length),
      List.drop_left' (natToBytes4_length pre.length)]
    exact ⟨rfl, rfl, rfl⟩

/-- `decryptStage` with its `let` bindings substituted, for rewriting. -/
lemma decryptStage_eq (pw env : List ℕ) :
    decryptStage pw env =
      if env.length < 24 ∨
          (((env.drop 8).drop 12).drop 4).length <
            bytes4ToNat (((env.drop 8).drop 12).take 4) then
        .error .decryptionError
      else
        if bytesToNat ((((env.drop 8).drop 12).drop 4).drop
              (bytes4ToNat (((env.drop 8).drop 12).take 4))) =
            macTag (kdf pw (env.take 8))
              ((env.drop 8).take 12 ++
                (((env.drop 8).drop 12).drop 4).take
                  (bytes4ToNat (((env.drop 8).drop 12).take 4))) then
          .ok (decBytesFrom (kdf pw (env.take 8)) 0
            ((((env.drop 8).drop 12).drop 4).take
              (bytes4ToNat (((env.drop 8).drop 12).take 4))))
        else .error .decryptionError := rfl

lemma decryptStage_encryptStage (pw salt nonce pt : List ℕ) (hs : salt.length = 8)
    (hn : nonce.length = 12) (hpt : ∀ b ∈ pt, b < 256)
    (hlen : pt.length < 4294967296) :
    decryptStage pw (encryptStage pw salt nonce pt) = .ok pt := by
  set k := kdf pw salt with hk
  set ct := encBytesFrom k 0 pt with hct
  set tagB := natToBytes (macTag k (nonce ++ ct)) with htagB
  have hEnv : encryptStage pw salt nonce pt =
      salt ++ nonce ++ natToBytes4 ct.length ++ ct ++ tagB := rfl
  have hctlen : ct.length = pt.length := encBytesFrom_length k 0 pt
  obtain ⟨e1, e2, e3, e4⟩ := envelope_parts salt nonce ct tagB hs hn
  rw [hEnv, decryptStage_eq, e1, e2, e3, e4]
  have hctn : bytes4ToNat (natToBytes4 ct.length) = ct.length := by
    apply bytes4ToNat_natToBytes4
    omega
  rw [hctn]
  rw [List.take_left, List.drop_left]
  have hnot : ¬((salt ++ nonce ++ natToBytes4 ct.length ++ ct ++ tagB).length < 24 ∨
      (ct ++ tagB).length < ct.length) := by
    simp only [List.length_append, natToBytes4_length]
    omega
  rw [if_neg hnot]
  rw [bytesToNat_natToBytes]
  rw [if_pos rfl]
  rw [hct, decBytesFrom_encBytesFrom k pt hpt 0]

lemma decryptStage_wrong_password (p1 p2 salt nonce pt : List ℕ)
    (hs : salt.length = 8) (hn : nonce.length = 12)
    (hlen : pt.length < 4294967296) (hne : p1 ≠ p2) :
    decryptStage p2 (encryptStage p1 salt nonce pt) = .error .decryptionError := by
  set k := kdf p1 salt with hk
  set ct := encBytesFrom k 0 pt with hct
  set tagB := natToBytes (macTag k (nonce ++ ct)) with htagB
  have hEnv : encryptStage p1 salt nonce pt =
      salt ++ nonce ++ natToBytes4 ct.length ++ ct ++ tagB := rfl
  have hctlen : ct.length = pt.length := encBytesFrom_length k 0 pt
  obtain ⟨e1, e2, e3, e4⟩ := envelope_parts salt nonce ct tagB hs hn
  rw [hEnv, decryptStage_eq, e1, e2, e3, e4]
  have hctn : bytes4ToNat (natToBytes4 ct.length) = ct.length := by
    apply bytes4ToNat_natToBytes4
    omega
  rw [hctn]
  rw [List.take_left, List.drop_left]
  have hnot : ¬((salt ++ nonce ++ natToBytes4 ct.length ++ ct ++ tagB).length < 24 ∨
      (ct ++ tagB).length < ct.length) := by
    simp only [List.length_append, natToBytes4_length]
    omega
  rw [if_neg hnot]
  rw [bytesToNat_natToBytes]
  have hneq : macTag k (nonce ++ ct) ≠ macTag (kdf p2 salt) (nonce ++ ct) := by
    intro h
    unfold macTag at h
    have := (Nat.pair_eq_pair.mp h).1
    rw [hk] at this
    exact hne (kdf_injective_password p1 p2 salt this)
  rw [if_neg hneq]

lemma encryptStage_mem_lt (pw salt nonce pt : List ℕ)
    (hsb : ∀ b ∈ salt, b < 256) (hnb : ∀ b ∈ nonce, b < 256) :
    ∀ x ∈ encryptStage pw salt nonce pt, x < 256 := by
  intro x hx
  unfold encryptStage at hx
  simp only [List.append_assoc, List.mem_append] at hx
  rcases hx with h | h | h | h | h
  · exact hsb x h
  · exact hnb x h
  · exact natToBytes4_mem_lt _ x h
  · exact encBytesFrom_mem_lt _ _ _ x h
  · exact natToBytes_mem_lt _ x h

lemma encryptStage_length_ge (pw salt nonce pt : List ℕ) :
    pt.length ≤ (encryptStage pw salt nonce pt).length := by
  unfold encryptStage
  simp only [List.length_append, natToBytes4_length]
  have := encBytesFrom_length (kdf pw salt) 0 pt
  omega

/-! ### Error-correction stage lemmas -/

lemma eccFactor_pos (e : ℕ) : 1 ≤ eccFactor e := by
  rcases e with _ | _ | _ | e <;> simp [eccFactor]

lemma foldl_majority_replicate (c : List ℕ) (b : ℕ) : ∀ m : ℕ,
    List.foldl (fun best x => if c.count x > c.count best then x else best) b
      (List.replicate m b) = b := by
  intro m
  induction m with
  | zero => rfl
  | succ m ih =>
    rw [List.replicate_succ, List.foldl_cons]
    have hstep : (if c.count b > c.count b then b else b) = b := ite_self b
    rw [hstep, ih]

lemma majorityVote_replicate (r b : ℕ) (hr : 0 < r) :
    majorityVote (List.replicate r b) = b := by
  unfold majorityVote
  match r, hr with
  | m + 1, _ =>
    rw [List.replicate_succ]
    simp only [List.headD_cons, List.foldl_cons]
    have hstep : (if (b :: List.replicate m b).count b > (b :: List.replicate m b).count b
        then b else b) = b := ite_self b
    rw [hstep]
    exact foldl_majority_replicate _ b m

lemma eccDecode_eccEncode (r : ℕ) (hr : 0 < r) (bs : List ℕ) :
    eccDecode r (eccEncode r bs) = bs := by
  unfold eccDecode eccEncode
  rw [chunks_flatMapL r hr _ (fun a => List.length_replicate r a)]
  rw [List.map_map]
  have : ∀ x ∈ bs, (majorityVote ∘ List.replicate r) x = id x := by
    intro x _
    exact majorityVote_replicate r x hr
  rw [List.map_congr_left this, List.map_id]

lemma eccEncode_mem (r : ℕ) (bs : List ℕ) : ∀ x ∈ eccEncode r bs, x ∈ bs := by
  intro x hx
  obtain ⟨a, ha, hxa⟩ := (mem_flatMapL _ _ _).mp hx
  rw [List.eq_of_mem_replicate hxa]
  exact ha

lemma eccEncode_length (r : ℕ) (bs : List ℕ) :
    (eccEncode r bs).length = r * bs.length := by
  induction bs with
  | nil => simp [eccEncode]
  | cons b t ih =>
    unfold eccEncode at ih ⊢
    simp only [flatMapL_cons, List.length_append, List.length_replicate, ih,
      List.length_cons]
    ring

end ImageLab

namespace ImageLab

/-! ### Pipeline composition lemmas -/

/-- `applyPipeline` with its `let` bindings substituted, for rewriting. -/
lemma applyPipeline_eq (tp : TransformParams) (salt nonce payload : List ℕ) :
    applyPipeline tp salt nonce payload =
      (if tp.eccLevel ≠ 0 then
        eccEncode (eccFactor tp.eccLevel)
          (match tp.password with
            | some pw => encryptStage pw salt nonce
                (if tp.compress then compressBytes payload else payload)
            | none => if tp.compress then compressBytes payload else payload)
      else
        (match tp.password with
          | some pw => encryptStage pw salt nonce
              (if tp.compress then compressBytes payload else payload)
          | none => if tp.compress then compressBytes payload else payload)) := rfl

/-- `invPipeline` with its `let` bindings substituted, for rewriting. -/
lemma invPipeline_eq (pw : Option (List ℕ)) (compressed encrypted : Bool)
    (ecc : ℕ) (bs : List ℕ) :
    invPipeline pw compressed encrypted ecc bs =
      match (if encrypted then
          match pw with
          | some p => decryptStage p (if ecc ≠ 0 then eccDecode (eccFactor ecc) bs else bs)
          | none => .error .decryptionError
        else .ok (if ecc ≠ 0 then eccDecode (eccFactor ecc) bs else bs) :
          Except StegoError (List ℕ)) with
      | .error e => .error e
      | .ok s2 => .ok (if compressed then decompressBytes s2 else s2) := rfl

lemma applyPipeline_mem_lt (tp : TransformParams) (salt nonce payload : List ℕ)
    (hp : ∀ b ∈ payload, b < 256) (hsb : ∀ b ∈ salt, b < 256)
    (hnb : ∀ b ∈ nonce, b < 256) :
    ∀ x ∈ applyPipeline tp salt nonce payload, x < 256 := by
  rw [applyPipeline_eq]
  have hs1 : ∀ b ∈ (if tp.compress then compressBytes payload else payload), b < 256 := by
    split
    · exact compressBytes_mem_lt payload hp
    · exact hp
  have hs2 : ∀ b ∈ (match tp.password with
      | some pw => encryptStage pw salt nonce
          (if tp.compress then compressBytes payload else payload)
      | none => if tp.compress then compressBytes payload else payload), b < 256 := by
    match tp.password with
    | some pw => exact encryptStage_mem_lt pw salt nonce _ hsb hnb
    | none => exact hs1
  split
  · intro x hx
    exact hs2 x (eccEncode_mem _ _ x hx)
  · exact hs2

/-- The intermediate compressed-or-raw payload is never longer than the
fully transformed payload. -/
lemma s1_length_le_applyPipeline (tp : TransformParams) (salt nonce payload : List ℕ) :
    (if tp.compress then compressBytes payload else payload).length ≤
      (applyPipeline tp salt nonce payload).length := by
  rw [applyPipeline_eq]
  have hs2 : (if tp.compress then compressBytes payload else payload).length ≤
      (match tp.password with
        | some pw => encryptStage pw salt nonce
            (if tp.compress then compressBytes payload else payload)
        | none => if tp.compress then compressBytes payload else payload).length := by
    match tp.password with
    | some pw => exact encryptStage_length_ge pw salt nonce _
    | none => exact le_rfl
  by_cases hecc : tp.eccLevel ≠ 0
  · rw [if_pos hecc]
    refine hs2.trans ?_
    rw [eccEncode_length]
    have := eccFactor_pos tp.eccLevel
    nlinarith
  · rw [if_neg hecc]
    exact hs2

/-- The inverse pipeline run with the encoding password undoes the
transform pipeline, for every combination of the three stages. -/
lemma invPipeline_applyPipeline (tp : TransformParams) (salt nonce payload : List ℕ)
    (hs : salt.length = 8) (hn : nonce.length = 12)
    (hp : ∀ b ∈ payload, b < 256)
    (hs1len : (if tp.compress then compressBytes payload else payload).length
      < 4294967296) :
    invPipeline tp.password tp.compress tp.password.isSome tp.eccLevel
      (applyPipeline tp salt nonce payload) = .ok payload := by
  rcases tp with ⟨cp, pw, ecc⟩
  simp only at hs1len
  have hs1b : ∀ b ∈ (if cp then compressBytes payload else payload), b < 256 := by
    split
    · exact compressBytes_mem_lt payload hp
    · exact hp
  have hfin : (if cp then decompressBytes (if cp then compressBytes payload else payload)
      else (if cp then compressBytes payload else payload)) = payload := by
    by_cases hcp : cp
    · simp only [if_pos hcp]
      exact decompressBytes_compressBytes payload
    · simp only [if_neg hcp]
  rw [applyPipeline_eq, invPipeline_eq]
  simp only
  match pw with
  | none =>
    simp only [Option.isSome_none, Bool.false_eq_true, if_false]
    by_cases hecc : ecc ≠ 0
    · rw [if_pos hecc, if_pos hecc, eccDecode_eccEncode _ (eccFactor_pos ecc)]
      exact congrArg Except.ok hfin
    · rw [if_neg hecc, if_neg hecc]
      exact congrArg Except.ok hfin
  | some p =>
    simp only [Option.isSome_some, if_true]
    have hdec : decryptStage p (encryptStage p salt nonce
        (if cp then compressBytes payload else payload)) =
        .ok (if cp then compressBytes payload else payload) :=
      decryptStage_encryptStage p salt nonce _ hs hn hs1b hs1len
    by_cases hecc : ecc ≠ 0
    · rw [if_pos hecc, if_pos hecc, eccDecode_eccEncode _ (eccFactor_pos ecc), hdec]
      exact congrArg Except.ok hfin
    · rw [if_neg hecc, if_neg hecc, hdec]
      exact congrArg Except.ok hfin

/-- The inverse pipeline run with a different password than the encoding
one stops with `DecryptionError` at tag verification. -/
lemma invPipeline_wrong_password (cp : Bool) (ecc : ℕ)
    (p1 p2 salt nonce payload : List ℕ)
    (hs : salt.length = 8) (hn : nonce.length = 12)
    (hs1len : (if cp then compressBytes payload else payload).length < 4294967296)
    (hne : p1 ≠ p2) :
    invPipeline (some p2) cp true ecc
      (applyPipeline ⟨cp, some p1, ecc⟩ salt nonce payload) =
      .error .decryptionError := by
  have hdec : decryptStage p2 (encryptStage p1 salt nonce
      (if cp then compressBytes payload else payload)) =
      .error .decryptionError :=
    decryptStage_wrong_password p1 p2 salt nonce _ hs hn hs1len hne
  rw [applyPipeline_eq, invPipeline_eq]
  simp only [if_true]
  by_cases hecc : ecc ≠ 0
  · rw [if_pos hecc, if_pos hecc, eccDecode_eccEncode _ (eccFactor_pos ecc), hdec]
  · rw [if_neg hecc, if_neg hecc, hdec]

end ImageLab

namespace ImageLab

/-! ### Header codec lemmas -/

@[simp] lemma serializeHeader_length (h : EmbeddingHeader) :
    (serializeHeader h).length = 12 := by
  simp [serializeHeader, magicBytes]

lemma serializeHeader_literal (h : EmbeddingHeader) :
    serializeHeader h =
      [83, 84, 1, flagsByte h, h.bitsPerChannel, maskByte h.mask,
        h.payloadLength % 256, h.payloadLength / 256 % 256,
        h.payloadLength / 65536 % 256, h.payloadLength / 16777216 % 256,
        h.chk % 256, h.chk / 256 % 256] := by
  simp [serializeHeader, magicBytes, natToBytes4, natToBytes2]

lemma serializeHeader_mem_lt (h : EmbeddingHeader) (hbpc : h.bitsPerChannel < 256)
    (hecc : h.eccLevel < 4) : ∀ b ∈ serializeHeader h, b < 256 := by
  intro b hb
  rw [serializeHeader_literal] at hb
  have hf : flagsByte h < 16 := by
    unfold flagsByte
    split <;> split <;> omega
  have hm : maskByte h.mask < 8 := by
    unfold maskByte
    split <;> split <;> split <;> omega
  simp only [List.mem_cons, List.not_mem_nil, or_false] at hb
  rcases hb with rfl | rfl | rfl | rfl | rfl | rfl | rfl | rfl | rfl | rfl | rfl | rfl <;>
    omega

lemma flagsByte_mod2 (h : EmbeddingHeader) :
    flagsByte h % 2 = if h.compressed then 1 else 0 := by
  unfold flagsByte
  split <;> split <;> omega

lemma flagsByte_div2_mod2 (h : EmbeddingHeader) :
    flagsByte h / 2 % 2 = if h.encrypted then 1 else 0 := by
  unfold flagsByte
  split <;> split <;> omega

lemma flagsByte_div4_mod4 (h : EmbeddingHeader) (hecc : h.eccLevel < 4) :
    flagsByte h / 4 % 4 = h.eccLevel := by
  unfold flagsByte
  split <;> split <;> omega

lemma byteToMask_maskByte (m : ChannelMask) : byteToMask (maskByte m) = m := by
  rcases m with ⟨r, g, b⟩
  cases r <;> cases g <;> cases b <;> decide

lemma parseHeader_serializeHeader (h : EmbeddingHeader) (hecc : h.eccLevel < 4)
    (hlen : h.payloadLength < 4294967296) (hchk : h.chk < 65536) :
    parseHeader (serializeHeader h) = .ok h := by
  have hser : serializeHeader h =
      [83, 84, 1, flagsByte h, h.bitsPerChannel, maskByte h.mask,
        h.payloadLength % 256, h.payloadLength / 256 % 256,
        h.payloadLength / 65536 % 256, h.payloadLength / 16777216 % 256,
        h.chk % 256, h.chk / 256 % 256] := by
    simp [serializeHeader, magicBytes, natToBytes4, natToBytes2]
  rw [hser]
  show (if (83 : ℕ) = 83 ∧ (84 : ℕ) = 84 then
      if (1 : ℕ) = 1 then
        Except.ok (⟨decide (flagsByte h % 2 = 1), decide (flagsByte h / 2 % 2 = 1),
          flagsByte h / 4 % 4, h.bitsPerChannel, byteToMask (maskByte h.mask),
          bytes4ToNat [h.payloadLength % 256, h.payloadLength / 256 % 256,
            h.payloadLength / 65536 % 256, h.payloadLength / 16777216 % 256],
          bytes2ToNat [h.chk % 256, h.chk / 256 % 256]⟩ : EmbeddingHeader)
      else Except.error StegoError.unsupportedCombination
    else Except.error StegoError.noHiddenData) = Except.ok h
  rw [if_pos ⟨rfl, rfl⟩, if_pos rfl]
  congr 1
  have hc : decide (flagsByte h % 2 = 1) = h.compressed := by
    rw [flagsByte_mod2]
    cases hcp : h.compressed <;> simp
  have he : decide (flagsByte h / 2 % 2 = 1) = h.encrypted := by
    rw [flagsByte_div2_mod2]
    cases hcp : h.encrypted <;> simp
  have h4 : bytes4ToNat [h.payloadLength % 256, h.payloadLength / 256 % 256,
      h.payloadLength / 65536 % 256, h.payloadLength / 16777216 % 256] =
      h.payloadLength := bytes4ToNat_natToBytes4 _ hlen
  have h2 : bytes2ToNat [h.chk % 256, h.chk / 256 % 256] = h.chk :=
    bytes2ToNat_natToBytes2 _ hchk
  rw [hc, he, flagsByte_div4_mod4 h hecc, byteToMask_maskByte, h4, h2]

end ImageLab

namespace ImageLab

/-! ### Bit packer/unpacker lemmas -/

lemma getLow_setLow (d v x : ℕ) (hx : x < 2 ^ d) : getLow d (setLow d v x) = x := by
  unfold getLow setLow
  rw [Nat.mul_comm, Nat.mul_add_mod, Nat.mod_eq_of_lt hx]

@[simp] lemma packStream_nil (d : ℕ) (gs : List ℕ) : packStream d [] gs = [] := rfl

lemma packStream_cons (d : ℕ) (sel : Bool) (v : ℕ) (rest : List (Bool × ℕ))
    (gs : List ℕ) :
    packStream d ((sel, v) :: rest) gs =
      (sel, packChanValue d sel v gs) :: packStream d rest (packChanRest sel gs) := by
  cases sel <;> cases gs <;> simp [packStream, packChanValue, packChanRest]

@[simp] lemma unpackStream_nil (d : ℕ) : unpackStream d [] = [] := rfl

lemma unpackStream_cons (d : ℕ) (sel : Bool) (v : ℕ) (rest : List (Bool × ℕ)) :
    unpackStream d ((sel, v) :: rest) =
      if sel then getLow d v :: unpackStream d rest else unpackStream d rest := rfl

@[simp] lemma selCount_nil : selCount [] = 0 := rfl

@[simp] lemma selCount_cons (sel : Bool) (v : ℕ) (rest : List (Bool × ℕ)) :
    selCount ((sel, v) :: rest) = (if sel then 1 else 0) + selCount rest := rfl

lemma packStream_length (d : ℕ) : ∀ (cs : List (Bool × ℕ)) (gs : List ℕ),
    (packStream d cs gs).length = cs.length := by
  intro cs
  induction cs with
  | nil => intro gs; rfl
  | cons c rest ih =>
    intro gs
    rcases c with ⟨sel, v⟩
    rw [packStream_cons]
    simp [ih]

lemma unpackStream_length (d : ℕ) : ∀ cs : List (Bool × ℕ),
    (unpackStream d cs).length = selCount cs := by
  intro cs
  induction cs with
  | nil => rfl
  | cons c rest ih =>
    rcases c with ⟨sel, v⟩
    rw [unpackStream_cons]
    cases sel <;> simp [ih]
    omega

@[simp] lemma packChanValue_false (d : ℕ) (v : ℕ) (gs : List ℕ) :
    packChanValue d false v gs = v := rfl

@[simp] lemma packChanValue_true_nil (d v : ℕ) : packChanValue d true v [] = v := rfl

@[simp] lemma packChanValue_true_cons (d v x : ℕ) (gs : List ℕ) :
    packChanValue d true v (x :: gs) = setLow d v x := rfl

@[simp] lemma packChanRest_false (gs : List ℕ) : packChanRest false gs = gs := rfl

@[simp] lemma packChanRest_true (gs : List ℕ) : packChanRest true gs = gs.tail := rfl

@[simp] lemma unpackStream_cons_true (d v : ℕ) (rest : List (Bool × ℕ)) :
    unpackStream d ((true, v) :: rest) = getLow d v :: unpackStream d rest := rfl

@[simp] lemma unpackStream_cons_false (d v : ℕ) (rest : List (Bool × ℕ)) :
    unpackStream d ((false, v) :: rest) = unpackStream d rest := rfl

/-- Unpacking a packed stream returns the packed groups followed by the
pre-existing low bits of the remaining selected channels. -/
lemma unpackStream_packStream (d : ℕ) : ∀ (cs : List (Bool × ℕ)) (gs : List ℕ),
    gs.length ≤ selCount cs → (∀ x ∈ gs, x < 2 ^ d) →
    unpackStream d (packStream d cs gs) = gs ++ (unpackStream d cs).drop gs.length := by
  intro cs
  induction cs with
  | nil =>
    intro gs hlen _
    simp at hlen
    subst hlen
    rfl
  | cons c rest ih =>
    intro gs hlen hbound
    rcases c with ⟨sel, v⟩
    cases sel
    · rw [packStream_cons]
      simp only [packChanValue_false, packChanRest_false, unpackStream_cons_false]
      simp at hlen
      exact ih gs (by omega) hbound
    · match gs with
      | [] =>
        rw [packStream_cons]
        simp only [packChanValue_true_nil, packChanRest_true, List.tail_nil,
          unpackStream_cons_true, List.length_nil, List.nil_append, List.drop_zero]
        rw [ih [] (by simp) (by simp)]
        simp
      | x :: gs2 =>
        rw [packStream_cons]
        simp only [packChanValue_true_cons, packChanRest_true, List.tail_cons,
          unpackStream_cons_true]
        rw [getLow_setLow d v x (hbound x (by simp))]
        simp at hlen
        rw [ih gs2 (by omega) (fun y hy => hbound y (by simp [hy]))]
        simp

@[simp] lemma tagChannels_nil (m : ChannelMask) : tagChannels m [] = [] := rfl

lemma tagChannels_cons (m : ChannelMask) (p : ℕ × ℕ × ℕ) (pix : List (ℕ × ℕ × ℕ)) :
    tagChannels m (p :: pix) =
      (m.r, p.1) :: (m.g, p.2.1) :: (m.b, p.2.2) :: tagChannels m pix := rfl

lemma tagChannels_length (m : ChannelMask) (pix : List (ℕ × ℕ × ℕ)) :
    (tagChannels m pix).length = 3 * pix.length := by
  induction pix with
  | nil => rfl
  | cons p rest ih =>
    rw [tagChannels_cons]
    simp [ih]
    ring

lemma selCount_tagChannels (m : ChannelMask) (pix : List (ℕ × ℕ × ℕ)) :
    selCount (tagChannels m pix) = pix.length * m.count := by
  induction pix with
  | nil => simp
  | cons p rest ih =>
    rw [tagChannels_cons]
    simp only [selCount_cons, ih, List.length_cons]
    unfold ChannelMask.count
    ring_nf

lemma channelsToPix_cons3 (a b c : ℕ) (rest : List ℕ) :
    channelsToPix (a :: b :: c :: rest) = (a, b, c) :: channelsToPix rest := rfl

lemma channelsToPix_length3 : ∀ (n : ℕ) (l : List ℕ), l.length = 3 * n →
    (channelsToPix l).length = n := by
  intro n
  induction n with
  | zero =>
    intro l hl
    simp at hl
    rw [hl]
    rfl
  | succ n ih =>
    intro l hl
    match l with
    | a :: b :: c :: rest =>
      rw [channelsToPix_cons3]
      simp only [List.length_cons]
      simp only [List.length_cons] at hl
      rw [ih rest (by omega)]

/-- Re-reading the channel stream of the image assembled from a packed
stream gives back exactly the packed stream (tags realign because
`packStream` preserves them). -/
lemma tagChannels_pixFromTagged_packStream (d : ℕ) (m : ChannelMask) :
    ∀ (pix : List (ℕ × ℕ × ℕ)) (gs : List ℕ),
    tagChannels m (pixFromTagged (packStream d (tagChannels m pix) gs)) =
      packStream d (tagChannels m pix) gs := by
  intro pix
  induction pix with
  | nil => intro gs; rfl
  | cons p rest ih =>
    intro gs
    rw [tagChannels_cons, packStream_cons, packStream_cons, packStream_cons]
    simp only [pixFromTagged, List.map_cons, channelsToPix_cons3, tagChannels_cons]
    have := ih (packChanRest m.b (packChanRest m.g (packChanRest m.r gs)))
    simp only [pixFromTagged] at this
    rw [this]

lemma pixFromTagged_packStream_length (d : ℕ) (m : ChannelMask)
    (pix : List (ℕ × ℕ × ℕ)) (gs : List ℕ) :
    (pixFromTagged (packStream d (tagChannels m pix) gs)).length = pix.length := by
  unfold pixFromTagged
  apply channelsToPix_length3
  rw [List.length_map, packStream_length, tagChannels_length]

end ImageLab

namespace ImageLab

/-! ### Group and chunk counting lemmas -/

lemma chunks_length_eq (k : ℕ) (hk : 0 < k) :
    ∀ l : List α, (chunks k l).length = (l.length + k - 1) / k := by
  suffices H : ∀ n : ℕ, ∀ l : List α, l.length = n →
      (chunks k l).length = (l.length + k - 1) / k by
    intro l
    exact H l.length l rfl
  intro n
  induction n using Nat.strong_induction_on with
  | _ n ih =>
    intro l hn
    match l with
    | [] =>
      simp [Nat.div_eq_of_lt (by omega : k - 1 < k)]
    | a :: t =>
      rw [chunks_cons_eq k hk _ (by simp)]
      by_cases hlong : k ≤ (a :: t).length
      · have hdr : ((a :: t).drop k).length < n := by
          simp only [List.length_drop]
          subst hn
          simp only [List.length_cons] at hlong ⊢
          omega
        have hrec := ih _ hdr ((a :: t).drop k) rfl
        simp only [List.length_cons, List.length_drop] at hrec hlong ⊢
        have h1 : t.length + 1 - k + k - 1 = t.length := by omega
        have h2 : t.length + 1 + k - 1 = t.length + k := by omega
        rw [hrec, h1, h2, Nat.add_div_right _ hk]
      · push_neg at hlong
        have hdr : (a :: t).drop k = [] := List.drop_eq_nil_of_le (by omega)
        rw [hdr]
        simp only [chunks_nil, List.length_cons, List.length_singleton]
        simp only [List.length_cons] at hlong
        have h2 : t.length + 1 + k - 1 = t.length + k := by omega
        rw [h2, Nat.add_div_right _ hk, Nat.div_eq_of_lt (by omega : t.length < k)]
        rfl

lemma bitsToGroups_length (d : ℕ) (hd : 0 < d) (bits : List ℕ) :
    (bitsToGroups d bits).length = (bits.length + d - 1) / d := by
  unfold bitsToGroups
  rw [List.length_map, chunks_length_eq d hd]

lemma bitsToGroups_mem_lt (d : ℕ) (hd : 0 < d) (bits : List ℕ)
    (hb : ∀ b ∈ bits, b < 2) : ∀ g ∈ bitsToGroups d bits, g < 2 ^ d := by
  intro g hg
  unfold bitsToGroups at hg
  obtain ⟨c, hc, hgc⟩ := List.mem_map.mp hg
  have hcl : c.length ≤ d := chunks_length_le d hd bits c hc
  have hcb : ∀ b ∈ c, b < 2 := chunks_mem_bits d hd bits hb c hc
  have hlen : (c ++ List.replicate (d - c.length) 0).length = d := by
    simp [List.length_append, List.length_replicate]
    omega
  have hbb : ∀ b ∈ c ++ List.replicate (d - c.length) 0, b < 2 := by
    intro b hb2
    rcases List.mem_append.mp hb2 with h | h
    · exact hcb b h
    · rw [List.eq_of_mem_replicate h]
      omega
  calc g = bitsToNat (c ++ List.replicate (d - c.length) 0) := hgc.symm
    _ < 2 ^ (c ++ List.replicate (d - c.length) 0).length := bitsToNat_lt _ hbb
    _ = 2 ^ d := by rw [hlen]

lemma flatMapL_congr (f g : α → List β) (l : List α) (h : ∀ a ∈ l, f a = g a) :
    flatMapL f l = flatMapL g l := by
  induction l with
  | nil => rfl
  | cons a t ih =>
    simp only [flatMapL_cons]
    rw [h a (by simp), ih (fun x hx => h x (by simp [hx]))]

lemma flatMapL_map (f : β → List γ) (g : α → β) (l : List α) :
    flatMapL f (l.map g) = flatMapL (fun x => f (g x)) l := by
  induction l with
  | nil => rfl
  | cons a t ih => simp [ih]

/-- Re-expanding the packed groups bit-by-bit returns the original
bitstream followed by the final group's zero padding. -/
lemma flatMapL_natToBits_bitsToGroups (d : ℕ) (hd : 0 < d) (bits : List ℕ)
    (hb : ∀ b ∈ bits, b < 2) :
    ∃ m : ℕ, flatMapL (natToBits d) (bitsToGroups d bits) =
      bits ++ List.replicate m 0 := by
  unfold bitsToGroups
  rw [flatMapL_map]
  have hcongr : ∀ c ∈ chunks d bits,
      natToBits d (bitsToNat (c ++ List.replicate (d - c.length) 0)) =
        c ++ List.replicate (d - c.length) 0 := by
    intro c hc
    have hcl : c.length ≤ d := chunks_length_le d hd bits c hc
    have hcb : ∀ b ∈ c, b < 2 := chunks_mem_bits d hd bits hb c hc
    have hlen : (c ++ List.replicate (d - c.length) 0).length = d := by
      simp [List.length_append, List.length_replicate]
      omega
    have hbb : ∀ b ∈ c ++ List.replicate (d - c.length) 0, b < 2 := by
      intro b hb2
      rcases List.mem_append.mp hb2 with h | h
      · exact hcb b h
      · rw [List.eq_of_mem_replicate h]
        omega
    have hnb := natToBits_bitsToNat _ hbb
    rw [hlen] at hnb
    exact hnb
  rw [flatMapL_congr _ _ _ hcongr]
  exact flatMapL_pad_chunks d hd bits

end ImageLab

namespace ImageLab

/-! ### Orchestrator lemmas -/

@[simp] lemma maskRGB_count : maskRGB.count = 3 := rfl

lemma checksum16_lt (bs : List ℕ) : checksum16 bs < 65536 := by
  unfold checksum16
  exact Nat.mod_lt _ (by omega)

/-- `encode` on valid parameters within capacity returns the image whose
leading 32 pixels carry the header at depth 1 over R,G,B and whose
remaining pixels carry the padded payload groups at the configured
depth and mask. -/
lemma encode_eq_ok (img : Image) (payload : List ℕ) (p : EncodeParams)
    (salt nonce : List ℕ)
    (h1 : 1 ≤ p.bitsPerChannel ∧ p.bitsPerChannel ≤ 8)
    (h2 : p.mask.r ∨ p.mask.g ∨ p.mask.b)
    (h3 : p.eccLevel < 4)
    (h4 : fitsCapacity img p.mask p.bitsPerChannel
      (applyPipeline ⟨p.compress, p.password, p.eccLevel⟩ salt nonce payload).length
      = true) :
    encode img payload p salt nonce = .ok
      ⟨img.width, img.height,
        pixFromTagged (packStream 1
          (tagChannels maskRGB (img.pix.take headerPixelCount))
          (bytesToBits (serializeHeader (encHeader p
            (applyPipeline ⟨p.compress, p.password, p.eccLevel⟩ salt nonce payload))))) ++
        pixFromTagged (packStream p.bitsPerChannel
          (tagChannels p.mask (img.pix.drop headerPixelCount))
          (bitsToGroups p.bitsPerChannel (bytesToBits
            (applyPipeline ⟨p.compress, p.password, p.eccLevel⟩ salt nonce payload))))⟩ := by
  unfold encode
  rw [if_neg (not_not_intro h1), if_neg (not_not_intro h2), if_neg (not_not_intro h3)]
  show (if ¬ fitsCapacity img p.mask p.bitsPerChannel
      (applyPipeline ⟨p.compress, p.password, p.eccLevel⟩ salt nonce payload).length
    then Except.error StegoError.capacityExceeded else _) = _
  rw [if_neg (not_not_intro h4)]

/-- `decode` with its `let` bindings substituted, for rewriting. -/
lemma decode_eq (img : Image) (pw : Option (List ℕ)) :
    decode img pw =
      match readHeader img with
      | .error e => .error e
      | .ok hdr =>
        if ¬(1 ≤ hdr.bitsPerChannel ∧ hdr.bitsPerChannel ≤ 8) then
          .error .unsupportedCombination
        else if ¬(hdr.mask.r ∨ hdr.mask.g ∨ hdr.mask.b) then
          .error .unsupportedCombination
        else if (bitsToBytes ((flatMapL (natToBits hdr.bitsPerChannel)
              (unpackStream hdr.bitsPerChannel
                (tagChannels hdr.mask (img.pix.drop headerPixelCount)))).take
              (8 * hdr.payloadLength))).length ≠ hdr.payloadLength then
          .error .corruptPayload
        else if checksum16 (bitsToBytes ((flatMapL (natToBits hdr.bitsPerChannel)
              (unpackStream hdr.bitsPerChannel
                (tagChannels hdr.mask (img.pix.drop headerPixelCount)))).take
              (8 * hdr.payloadLength))) ≠ hdr.chk then
          .error .corruptPayload
        else invPipeline pw hdr.compressed hdr.encrypted hdr.eccLevel
          (bitsToBytes ((flatMapL (natToBits hdr.bitsPerChannel)
            (unpackStream hdr.bitsPerChannel
              (tagChannels hdr.mask (img.pix.drop headerPixelCount)))).take
            (8 * hdr.payloadLength))) := rfl

end ImageLab

namespace ImageLab

lemma decode_of_readHeader_ok (img : Image) (pw : Option (List ℕ))
    (hdr : EmbeddingHeader) (h : readHeader img = .ok hdr) :
    decode img pw =
      if ¬(1 ≤ hdr.bitsPerChannel ∧ hdr.bitsPerChannel ≤ 8) then
        .error .unsupportedCombination
      else if ¬(hdr.mask.r ∨ hdr.mask.g ∨ hdr.mask.b) then
        .error .unsupportedCombination
      else if (bitsToBytes ((flatMapL (natToBits hdr.bitsPerChannel)
            (unpackStream hdr.bitsPerChannel
              (tagChannels hdr.mask (img.pix.drop headerPixelCount)))).take
            (8 * hdr.payloadLength))).length ≠ hdr.payloadLength then
        .error .corruptPayload
      else if checksum16 (bitsToBytes ((flatMapL (natToBits hdr.bitsPerChannel)
            (unpackStream hdr.bitsPerChannel
              (tagChannels hdr.mask (img.pix.drop headerPixelCount)))).take
            (8 * hdr.payloadLength))) ≠ hdr.chk then
        .error .corruptPayload
      else invPipeline pw hdr.compressed hdr.encrypted hdr.eccLevel
        (bitsToBytes ((flatMapL (natToBits hdr.bitsPerChannel)
          (unpackStream hdr.bitsPerChannel
            (tagChannels hdr.mask (img.pix.drop headerPixelCount)))).take
          (8 * hdr.payloadLength))) := by
  rw [decode_eq, h]

lemma decode_of_readHeader_error (img : Image) (pw : Option (List ℕ))
    (e : StegoError) (h : readHeader img = .error e) :
    decode img pw = .error e := by
  rw [decode_eq, h]

/-- The central extraction lemma: a successful encode yields an image whose
blind header read recovers exactly the assembled header, and whose decode
reaches the inverse pipeline applied to exactly the transformed payload. -/
lemma decode_reaches_invPipeline (img : Image) (payload : List ℕ)
    (p : EncodeParams) (salt nonce : List ℕ) (pw' : Option (List ℕ))
    (h1 : 1 ≤ p.bitsPerChannel ∧ p.bitsPerChannel ≤ 8)
    (h2 : p.mask.r ∨ p.mask.g ∨ p.mask.b)
    (h3 : p.eccLevel < 4)
    (h4 : fitsCapacity img p.mask p.bitsPerChannel
      (applyPipeline ⟨p.compress, p.password, p.eccLevel⟩ salt nonce payload).length
        = true)
    (hpay : ∀ b ∈ payload, b < 256)
    (hsb : ∀ b ∈ salt, b < 256) (hnb : ∀ b ∈ nonce, b < 256) :
    ∃ out : Image, encode img payload p salt nonce = .ok out ∧
      readHeader out = .ok (encHeader p
        (applyPipeline ⟨p.compress, p.password, p.eccLevel⟩ salt nonce payload)) ∧
      decode out pw' = invPipeline pw' p.compress p.password.isSome p.eccLevel
        (applyPipeline ⟨p.compress, p.password, p.eccLevel⟩ salt nonce payload) := by
  have henc := encode_eq_ok img payload p salt nonce h1 h2 h3 h4
  set tp : TransformParams := ⟨p.compress, p.password, p.eccLevel⟩ with htp
  set t := applyPipeline tp salt nonce payload with ht
  set d := p.bitsPerChannel with hdd
  have hdpos : 0 < d := by omega
  have htb : ∀ b ∈ t, b < 256 := applyPipeline_mem_lt tp salt nonce payload hpay hsb hnb
  have hfit := h4
  unfold fitsCapacity at hfit
  simp only [Bool.and_eq_true, decide_eq_true_eq, headerPixelCount] at hfit
  obtain ⟨⟨hf1, hf2⟩, hf3⟩ := hfit
  set hdr := encHeader p t with hhdr
  set hdrBits := bytesToBits (serializeHeader hdr) with hhdrBits
  set groups := bitsToGroups d (bytesToBits t) with hgroups
  set hdrPix := pixFromTagged (packStream 1
    (tagChannels maskRGB (img.pix.take 32)) hdrBits) with hhdrPix
  set bodyPix := pixFromTagged (packStream d
    (tagChannels p.mask (img.pix.drop 32)) groups) with hbodyPix
  simp only [headerPixelCount] at henc
  have hlen32 : (img.pix.take 32).length = 32 := by
    rw [List.length_take]
    omega
  have hHdrPixLen : hdrPix.length = 32 := by
    rw [hhdrPix, pixFromTagged_packStream_length, hlen32]
  have hTake : (hdrPix ++ bodyPix).take 32 = hdrPix := List.take_left' hHdrPixLen
  have hDrop : (hdrPix ++ bodyPix).drop 32 = bodyPix := List.drop_left' hHdrPixLen
  have hbitsLen : hdrBits.length = 96 := by
    rw [hhdrBits, bytesToBits_length, serializeHeader_length]
  have hsel : selCount (tagChannels maskRGB (img.pix.take 32)) = 96 := by
    rw [selCount_tagChannels, hlen32, maskRGB_count]
  have hbb : ∀ x ∈ hdrBits, x < 2 ^ 1 := by
    intro x hx
    rw [hhdrBits] at hx
    have := bytesToBits_mem_lt _ x hx
    omega
  have hbpclt : hdr.bitsPerChannel < 256 := by
    show d < 256
    omega
  have hserb : ∀ b ∈ serializeHeader hdr, b < 256 :=
    serializeHeader_mem_lt hdr hbpclt h3
  have hRead : readHeader ⟨img.width, img.height, hdrPix ++ bodyPix⟩ = .ok hdr := by
    unfold readHeader
    simp only [headerPixelCount]
    show parseHeader (bitsToBytes (unpackStream 1
      (tagChannels maskRGB ((hdrPix ++ bodyPix).take 32)))) = .ok hdr
    rw [hTake, hhdrPix, tagChannels_pixFromTagged_packStream]
    rw [unpackStream_packStream 1 _ hdrBits (by rw [hbitsLen, hsel]) hbb]
    have hdropnil : (unpackStream 1 (tagChannels maskRGB (img.pix.take 32))).drop
        hdrBits.length = [] := by
      apply List.drop_eq_nil_of_le
      rw [unpackStream_length, hsel, hbitsLen]
    rw [hdropnil, List.append_nil, hhdrBits, bitsToBytes_bytesToBits _ hserb]
    exact parseHeader_serializeHeader hdr h3 hf3 (checksum16_lt t)
  refine ⟨_, henc, hRead, ?_⟩
  rw [decode_of_readHeader_ok _ _ _ hRead]
  have e1 : hdr.bitsPerChannel = d := rfl
  have e2 : hdr.mask = p.mask := rfl
  have e3 : hdr.payloadLength = t.length := rfl
  have e4 : hdr.chk = checksum16 t := rfl
  have e5 : hdr.compressed = p.compress := rfl
  have e6 : hdr.encrypted = p.password.isSome := rfl
  have e7 : hdr.eccLevel = p.eccLevel := rfl
  simp only [headerPixelCount, e1, e2, e3, e4, e5, e6, e7]
  rw [if_neg (not_not_intro h1), if_neg (not_not_intro h2)]
  have hpixdrop : (Image.mk img.width img.height (hdrPix ++ bodyPix)).pix.drop 32
      = bodyPix := hDrop
  rw [hpixdrop, hbodyPix, tagChannels_pixFromTagged_packStream]
  have hgb : ∀ x ∈ groups, x < 2 ^ d := by
    rw [hgroups]
    exact bitsToGroups_mem_lt d hdpos _ (bytesToBits_mem_lt t)
  have hglen : groups.length ≤ selCount (tagChannels p.mask (img.pix.drop 32)) := by
    rw [selCount_tagChannels, List.length_drop]
    rw [hgroups, bitsToGroups_length d hdpos, bytesToBits_length]
    exact hf2
  rw [unpackStream_packStream d _ groups hglen hgb, flatMapL_append]
  obtain ⟨m, hm⟩ := flatMapL_natToBits_bitsToGroups d hdpos (bytesToBits t)
    (bytesToBits_mem_lt t)
  rw [← hgroups] at hm
  rw [hm]
  have htake : ((bytesToBits t ++ List.replicate m 0) ++
      (flatMapL (natToBits d)
        ((unpackStream d (tagChannels p.mask (img.pix.drop 32))).drop
          groups.length))).take (8 * t.length) = bytesToBits t := by
    rw [List.append_assoc]
    exact List.take_left' (bytesToBits_length t)
  rw [htake, bitsToBytes_bytesToBits t htb]
  rw [if_neg (not_not_intro rfl), if_neg (not_not_intro rfl)]

end ImageLab

namespace ImageLab

set_option maxRecDepth 10000

/-- C1: for every valid parameter combination — bits_per_channel in [1,8],
non-empty channel mask, compress on or off, password set or unset,
error-correction level none/low/medium/high — and every payload whose
transformed size fits the image's usable capacity, decoding the encoded
image with the same password returns the original payload byte for
byte. -/
theorem roundtrip_decode_encode (img : Image) (payload : List ℕ)
    (p : EncodeParams) (salt nonce : List ℕ)
    (h1 : 1 ≤ p.bitsPerChannel ∧ p.bitsPerChannel ≤ 8)
    (h2 : p.mask.r ∨ p.mask.g ∨ p.mask.b)
    (h3 : p.eccLevel < 4)
    (h4 : fitsCapacity img p.mask p.bitsPerChannel
      (applyPipeline ⟨p.compress, p.password, p.eccLevel⟩ salt nonce payload).length
        = true)
    (hpay : ∀ b ∈ payload, b < 256)
    (hs : salt.length = 8) (hsb : ∀ b ∈ salt, b < 256)
    (hn : nonce.length = 12) (hnb : ∀ b ∈ nonce, b < 256) :
    ∃ out : Image, encode img payload p salt nonce = .ok out ∧
      decode out p.password = .ok payload := by
  obtain ⟨out, henc, _, hdec⟩ := decode_reaches_invPipeline img payload p salt
    nonce p.password h1 h2 h3 h4 hpay hsb hnb
  refine ⟨out, henc, ?_⟩
  rw [hdec]
  have hle := s1_length_le_applyPipeline ⟨p.compress, p.password, p.eccLevel⟩
    salt nonce payload
  dsimp only at hle
  unfold fitsCapacity at h4
  simp only [Bool.and_eq_true, decide_eq_true_eq] at h4
  have hs1len : (if p.compress then compressBytes payload else payload).length
      < 4294967296 := by omega
  exact invPipeline_applyPipeline ⟨p.compress, p.password, p.eccLevel⟩
    salt nonce payload hs hn hpay hs1len

/-- C1 witness: the round trip at a concrete 60-pixel image, payload "HI",
depth 8 over R,G,B, with compression and encryption under password
[1, 2]. -/
theorem roundtrip_decode_encode_witness :
    ∃ out : Image, encode c1Img c1Payload c1Params c1Salt c1Nonce = .ok out ∧
      decode out c1Params.password = .ok c1Payload :=
  roundtrip_decode_encode c1Img c1Payload c1Params c1Salt c1Nonce
    (by decide) (by decide) (by decide) (by decide) (by decide)
    (by decide) (by decide) (by decide) (by decide)

end ImageLab

namespace ImageLab

/-- C3: for every encode, whatever the payload's depth and channel mask,
the blind header read — 1 bit per channel across R, G, B from the fixed
leading 32-pixel region in raster order, with no other parameters —
recovers a parseable header carrying the payload's own parameters. -/
theorem header_blind_readable (img : Image) (payload : List ℕ)
    (p : EncodeParams) (salt nonce : List ℕ)
    (h1 : 1 ≤ p.bitsPerChannel ∧ p.bitsPerChannel ≤ 8)
    (h2 : p.mask.r ∨ p.mask.g ∨ p.mask.b)
    (h3 : p.eccLevel < 4)
    (h4 : fitsCapacity img p.mask p.bitsPerChannel
      (applyPipeline ⟨p.compress, p.password, p.eccLevel⟩ salt nonce payload).length
        = true)
    (hpay : ∀ b ∈ payload, b < 256)
    (hsb : ∀ b ∈ salt, b < 256) (hnb : ∀ b ∈ nonce, b < 256) :
    ∃ (out : Image) (hdr : EmbeddingHeader),
      encode img payload p salt nonce = .ok out ∧
      readHeader out = .ok hdr ∧
      hdr.bitsPerChannel = p.bitsPerChannel ∧ hdr.mask = p.mask ∧
      hdr.compressed = p.compress ∧ hdr.encrypted = p.password.isSome ∧
      hdr.eccLevel = p.eccLevel := by
  obtain ⟨out, henc, hread, _⟩ := decode_reaches_invPipeline img payload p salt
    nonce none h1 h2 h3 h4 hpay hsb hnb
  exact ⟨out, _, henc, hread, rfl, rfl, rfl, rfl, rfl⟩

/-- C3 witness: the header of an encode at depth 3 over R and B with
error correction is readable blind at depth 1 over R, G, B. -/
theorem header_blind_readable_witness :
    ∃ (out : Image) (hdr : EmbeddingHeader),
      encode c3Img [65] c3Params [] [] = .ok out ∧
      readHeader out = .ok hdr ∧
      hdr.bitsPerChannel = c3Params.bitsPerChannel ∧ hdr.mask = c3Params.mask ∧
      hdr.compressed = c3Params.compress ∧
      hdr.encrypted = c3Params.password.isSome ∧
      hdr.eccLevel = c3Params.eccLevel :=
  header_blind_readable c3Img [65] c3Params [] []
    (by decide) (by decide) (by decide) (by decide) (by decide)
    (by decide) (by decide)

/-- C4: the transform pipeline applies its enabled stages in the fixed
order compress, then encrypt, then error-correct, and for every one of
the eight stage combinations the inverse pipeline — error-correction
decode, then decrypt, then decompress, selected by the flags recorded at
encode time — restores the original payload exactly. -/
theorem pipeline_order_and_inverse (compress : Bool) (pw : Option (List ℕ))
    (ecc : ℕ) (salt nonce payload : List ℕ)
    (hs : salt.length = 8) (hn : nonce.length = 12)
    (hpay : ∀ b ∈ payload, b < 256)
    (hs1len : (if compress then compressBytes payload else payload).length
      < 4294967296) :
    invPipeline pw compress pw.isSome ecc
      (applyPipeline ⟨compress, pw, ecc⟩ salt nonce payload) = .ok payload :=
  invPipeline_applyPipeline ⟨compress, pw, ecc⟩ salt nonce payload hs hn hpay hs1len

/-- C4 witness: all three stages enabled at once (compress, encrypt under
password [5], medium error correction) invert to the original payload. -/
theorem pipeline_order_and_inverse_witness :
    invPipeline (some [5]) true (some [5]).isSome 2
      (applyPipeline ⟨true, some [5], 2⟩ c1Salt c1Nonce [9, 9, 9]) =
      .ok [9, 9, 9] :=
  pipeline_order_and_inverse true (some [5]) 2 c1Salt c1Nonce [9, 9, 9]
    (by decide) (by decide) (by decide) (by decide)

/-- C5: encode is all-or-nothing — an invalid parameter or an oversized
payload makes encode return the corresponding error before any output
pixel exists: no image (partial or otherwise) is produced, and the pure
source image is untouched. -/
theorem encode_all_or_nothing (img : Image) (payload : List ℕ)
    (p : EncodeParams) (salt nonce : List ℕ) :
    ((¬(1 ≤ p.bitsPerChannel ∧ p.bitsPerChannel ≤ 8) ∨
        ¬(p.mask.r ∨ p.mask.g ∨ p.mask.b) ∨ ¬(p.eccLevel < 4)) →
      encode img payload p salt nonce = .error .invalidParameter) ∧
    ((1 ≤ p.bitsPerChannel ∧ p.bitsPerChannel ≤ 8) →
      (p.mask.r ∨ p.mask.g ∨ p.mask.b) → p.eccLevel < 4 →
      fitsCapacity img p.mask p.bitsPerChannel
        (applyPipeline ⟨p.compress, p.password, p.eccLevel⟩ salt nonce
          payload).length = false →
      encode img payload p salt nonce = .error .capacityExceeded) := by
  constructor
  · intro hbad
    unfold encode
    by_cases hA : (1 ≤ p.bitsPerChannel ∧ p.bitsPerChannel ≤ 8)
    · rw [if_neg (not_not_intro hA)]
      by_cases hB : (p.mask.r ∨ p.mask.g ∨ p.mask.b)
      · rw [if_neg (not_not_intro hB)]
        have hC : ¬(p.eccLevel < 4) := by tauto
        rw [if_pos hC]
      · rw [if_pos hB]
    · rw [if_pos hA]
  · intro hA hB hC hfit
    unfold encode
    rw [if_neg (not_not_intro hA), if_neg (not_not_intro hB),
      if_neg (not_not_intro hC)]
    show (if ¬ fitsCapacity img p.mask p.bitsPerChannel
        (applyPipeline ⟨p.compress, p.password, p.eccLevel⟩ salt nonce
          payload).length
      then Except.error StegoError.capacityExceeded else _) = _
    rw [if_pos (by simp [hfit])]

/-- C5 witness: depth 9 is rejected as an invalid parameter, and a 4-pixel
image (too small even for the header region) yields CapacityExceededError;
in both runs no image is returned. -/
theorem encode_all_or_nothing_witness :
    encode c3Img [1] ⟨9, maskRGB, false, none, 0⟩ [] [] =
      .error .invalidParameter ∧
    encode c5SmallImg [1] ⟨1, maskRGB, false, none, 0⟩ [] [] =
      .error .capacityExceeded :=
  ⟨(encode_all_or_nothing c3Img [1] ⟨9, maskRGB, false, none, 0⟩ [] []).1
      (Or.inl (by decide)),
    (encode_all_or_nothing c5SmallImg [1] ⟨1, maskRGB, false, none, 0⟩ [] []).2
      (by decide) (by decide) (by decide) (by decide)⟩

/-- C6: a payload encoded with encryption under password P1 and decoded
with any different password P2 always fails with DecryptionError at
authentication-tag verification — never a wrong plaintext, and distinct
from the checksum-mismatch CorruptPayloadError. -/
theorem wrong_password_decryption_fails (img : Image) (payload : List ℕ)
    (bpc : ℕ) (mask : ChannelMask) (compress : Bool) (ecc : ℕ)
    (p1 p2 salt nonce : List ℕ)
    (h1 : 1 ≤ bpc ∧ bpc ≤ 8)
    (h2 : mask.r ∨ mask.g ∨ mask.b)
    (h3 : ecc < 4)
    (h4 : fitsCapacity img mask bpc
      (applyPipeline ⟨compress, some p1, ecc⟩ salt nonce payload).length = true)
    (hpay : ∀ b ∈ payload, b < 256)
    (hs : salt.length = 8) (hsb : ∀ b ∈ salt, b < 256)
    (hn : nonce.length = 12) (hnb : ∀ b ∈ nonce, b < 256)
    (hne : p1 ≠ p2) :
    ∃ out : Image,
      encode img payload ⟨bpc, mask, compress, some p1, ecc⟩ salt nonce =
        .ok out ∧
      decode out (some p2) = .error .decryptionError := by
  obtain ⟨out, henc, _, hdec⟩ := decode_reaches_invPipeline img payload
    ⟨bpc, mask, compress, some p1, ecc⟩ salt nonce (some p2) h1 h2 h3 h4
    hpay hsb hnb
  refine ⟨out, henc, ?_⟩
  rw [hdec]
  have hle := s1_length_le_applyPipeline ⟨compress, some p1, ecc⟩ salt nonce payload
  dsimp only at hle
  unfold fitsCapacity at h4
  simp only [Bool.and_eq_true, decide_eq_true_eq] at h4
  have hs1len : (if compress then compressBytes payload else payload).length
      < 4294967296 := by omega
  exact invPipeline_wrong_password compress ecc p1 p2 salt nonce payload
    hs hn hs1len hne

/-- C6 witness: encode under password [1], decode with password [2] —
DecryptionError at a concrete 60-pixel image. -/
theorem wrong_password_decryption_fails_witness :
    ∃ out : Image,
      encode c1Img [7] ⟨8, maskRGB, false, some [1], 0⟩ c1Salt c1Nonce =
        .ok out ∧
      decode out (some [2]) = .error .decryptionError :=
  wrong_password_decryption_fails c1Img [7] 8 maskRGB false 0 [1] [2]
    c1Salt c1Nonce (by decide) (by decide) (by decide) (by decide)
    (by decide) (by decide) (by decide) (by decide) (by decide) (by decide)

/-- C7: whenever decode finds a valid header, the checksum of the extracted
transformed payload is verified before any inverse transform runs: on a
mismatch, decode returns CorruptPayloadError for every supplied password —
the password, the encryption flag, and the other transform stages never
come into play. -/
theorem checksum_verified_before_inverse_transforms (img : Image)
    (pw : Option (List ℕ)) (hdr : EmbeddingHeader)
    (hr : readHeader img = .ok hdr)
    (hv1 : 1 ≤ hdr.bitsPerChannel ∧ hdr.bitsPerChannel ≤ 8)
    (hv2 : hdr.mask.r ∨ hdr.mask.g ∨ hdr.mask.b)
    (hlen : (bitsToBytes ((flatMapL (natToBits hdr.bitsPerChannel)
        (unpackStream hdr.bitsPerChannel
          (tagChannels hdr.mask (img.pix.drop headerPixelCount)))).take
        (8 * hdr.payloadLength))).length = hdr.payloadLength)
    (hchk : checksum16 (bitsToBytes ((flatMapL (natToBits hdr.bitsPerChannel)
        (unpackStream hdr.bitsPerChannel
          (tagChannels hdr.mask (img.pix.drop headerPixelCount)))).take
        (8 * hdr.payloadLength))) ≠ hdr.chk) :
    decode img pw = .error .corruptPayload := by
  rw [decode_of_readHeader_ok _ _ _ hr,
    if_neg (not_not_intro hv1), if_neg (not_not_intro hv2),
    if_neg (not_not_intro hlen), if_pos hchk]

/-- C7 witness: a concrete image with a well-formed header whose stored
checksum (1) disagrees with the checksum of the extracted empty payload
(0); decode reports corruption, with no password involved. -/
theorem checksum_verified_before_inverse_transforms_witness :
    decode c7Img none = .error .corruptPayload :=
  checksum_verified_before_inverse_transforms c7Img none c7Hdr
    rfl (by decide) (by decide) (by decide) (by decide)

end ImageLab
